import Mathlib

/-!
Verification of the pytrends research module (pytrends/research.py).

This file shallowly embeds the data model and algorithms of the module:

* the calendar arithmetic and the chunking loops of the daily fetchers
  (functions getTimeframe / _getRawDailyData / getDailyDataOnce);
* the pandas value and column model (NaN, infinities, exact rationals)
  together with the scaling engine of getDailyDataOnce and the two
  robust-aggregation branches of getDailyDataFromDB;
* the retry loop of _fetchData;
* the same-day idempotency guard of buildDatabase / buildMonthlyDatabase.

Floating-point arithmetic is idealised by exact rationals; the IEEE special
values NaN / +inf / -inf, which pandas uses for missing data and division by
zero, are modelled explicitly.  Network calls are modelled by parameters
giving the data (or the error outcome) each call produces.
-/

/-! ## Calendar model

Python date objects are triples (year, month, day) ordered lexicographically.
-/

structure Date where
  year : Nat
  month : Nat
  day : Nat
deriving DecidableEq, Repr

/-- Leap year rule of the Gregorian calendar (calendar.isleap). -/
def isLeap (y : Nat) : Bool :=
  y % 4 == 0 && (y % 100 != 0 || y % 400 == 0)

/-- Number of days in a month (second component of calendar.monthrange). -/
def daysInMonth (y m : Nat) : Nat :=
  if m = 2 then (if isLeap y then 29 else 28)
  else if m = 4 ∨ m = 6 ∨ m = 9 ∨ m = 11 then 30
  else 31

/-- A structurally valid calendar date. -/
def Date.Valid (d : Date) : Prop :=
  1 ≤ d.month ∧ d.month ≤ 12 ∧ 1 ≤ d.day ∧ d.day ≤ daysInMonth d.year d.month

instance (d : Date) : Decidable d.Valid := by
  unfold Date.Valid; infer_instance

/-- Date comparison (lexicographic), as Python compares date objects. -/
def dleb (a b : Date) : Bool :=
  decide (a.year < b.year) ||
    (decide (a.year = b.year) &&
      (decide (a.month < b.month) ||
        (decide (a.month = b.month) && decide (a.day ≤ b.day))))

/-- Strict date comparison. -/
def dltb (a b : Date) : Bool :=
  decide (a.year < b.year) ||
    (decide (a.year = b.year) &&
      (decide (a.month < b.month) ||
        (decide (a.month = b.month) && decide (a.day < b.day))))

/-- min([a, b]) on dates. -/
def dmin (a b : Date) : Date := if dleb a b then a else b

/-- The day after d (timedelta(days=1)). -/
def nextDay (d : Date) : Date :=
  if d.day < daysInMonth d.year d.month then ⟨d.year, d.month, d.day + 1⟩
  else if d.month < 12 then ⟨d.year, d.month + 1, 1⟩
  else ⟨d.year + 1, 1, 1⟩

/-- The last day of d's month:
date(current.year, current.month, monthrange(current.year, current.month)[1]). -/
def lastDayOfMonthOf (d : Date) : Date :=
  ⟨d.year, d.month, daysInMonth d.year d.month⟩

/-- dateutil relativedelta(months=7): advance the month by 7, keep the day
number, clamping it to the length of the target month. -/
def add7Months (d : Date) : Date :=
  if d.month + 7 ≤ 12 then
    ⟨d.year, d.month + 7, min d.day (daysInMonth d.year (d.month + 7))⟩
  else
    ⟨d.year + 1, d.month + 7 - 12, min d.day (daysInMonth (d.year + 1) (d.month + 7 - 12))⟩

/-- The last day of the calendar month that lies 7 months after d's month. -/
def monthAfter7End (d : Date) : Date :=
  if d.month + 7 ≤ 12 then
    ⟨d.year, d.month + 7, daysInMonth d.year (d.month + 7)⟩
  else
    ⟨d.year + 1, d.month + 7 - 12, daysInMonth (d.year + 1) (d.month + 7 - 12)⟩

/-- A coarse strictly monotone encoding of dates, used as loop fuel. -/
def dcode (d : Date) : Nat := 372 * d.year + 31 * d.month + d.day

/-! ### Elementary date lemmas -/

theorem daysInMonth_pos (y m : Nat) : 1 ≤ daysInMonth y m := by
  unfold daysInMonth; split <;> [split <;> omega; (split <;> omega)]

theorem daysInMonth_le_31 (y m : Nat) : daysInMonth y m ≤ 31 := by
  unfold daysInMonth; split <;> [split <;> omega; (split <;> omega)]

theorem dleb_iff (a b : Date) : dleb a b = true ↔
    (a.year < b.year ∨ (a.year = b.year ∧
      (a.month < b.month ∨ (a.month = b.month ∧ a.day ≤ b.day)))) := by
  unfold dleb; simp

theorem dltb_iff (a b : Date) : dltb a b = true ↔
    (a.year < b.year ∨ (a.year = b.year ∧
      (a.month < b.month ∨ (a.month = b.month ∧ a.day < b.day)))) := by
  unfold dltb; simp

theorem dleb_refl (a : Date) : dleb a a = true := by
  rw [dleb_iff]; omega

theorem dltb_irrefl (a : Date) : dltb a a = false := by
  cases h : dltb a a with
  | false => rfl
  | true => exfalso; rw [dltb_iff] at h; omega

theorem dltb_of_dltb_of_dleb {a b c : Date}
    (h1 : dltb a b = true) (h2 : dleb b c = true) : dltb a c = true := by
  rw [dltb_iff] at *; rw [dleb_iff] at h2; omega

theorem dleb_of_dltb {a b : Date} (h : dltb a b = true) : dleb a b = true := by
  rw [dltb_iff] at h; rw [dleb_iff]; omega

theorem dleb_trans {a b c : Date}
    (h1 : dleb a b = true) (h2 : dleb b c = true) : dleb a c = true := by
  rw [dleb_iff] at *; omega

theorem dltb_of_not_dleb {a b : Date} (h : ¬ dleb a b = true) : dltb b a = true := by
  rw [dleb_iff] at h; rw [dltb_iff]; omega

theorem not_dltb_of_dleb {a b : Date} (h : dleb a b = true) : dltb b a = false := by
  rw [dleb_iff] at h
  cases hlt : dltb b a with
  | false => rfl
  | true => exfalso; rw [dltb_iff] at hlt; omega

theorem dleb_antisymm {a b : Date}
    (h1 : dleb a b = true) (h2 : dleb b a = true) : a = b := by
  rw [dleb_iff] at h1 h2
  cases a; cases b
  simp_all
  omega

theorem dcode_lt_of_dltb {a b : Date} (ha : a.Valid) (hb : b.Valid)
    (h : dltb a b = true) : dcode a < dcode b := by
  obtain ⟨_, ham, _, had⟩ := ha
  obtain ⟨_, hbm, _, hbd⟩ := hb
  have h31a := daysInMonth_le_31 a.year a.month
  have h31b := daysInMonth_le_31 b.year b.month
  rw [dltb_iff] at h
  unfold dcode
  omega

theorem nextDay_valid {d : Date} (h : d.Valid) : (nextDay d).Valid := by
  obtain ⟨h1, h2, h3, h4⟩ := h
  have p1 := daysInMonth_pos d.year (d.month + 1)
  have p2 := daysInMonth_pos (d.year + 1) 1
  unfold nextDay Date.Valid
  split_ifs with hday hm <;> dsimp only <;> omega

theorem dltb_nextDay {d : Date} (h : d.Valid) : dltb d (nextDay d) = true := by
  obtain ⟨h1, h2, h3, h4⟩ := h
  unfold nextDay
  split_ifs with hday hm <;> (rw [dltb_iff]; dsimp only; omega)

theorem dcode_nextDay {d : Date} (h : d.Valid) : dcode d < dcode (nextDay d) :=
  dcode_lt_of_dltb h (nextDay_valid h) (dltb_nextDay h)

/-- There is no valid date strictly between d and nextDay d: any valid e
strictly above d is at or above nextDay d. -/
theorem nextDay_le_of_lt {d e : Date} (hd : d.Valid) (he : e.Valid)
    (h : dltb d e = true) : dleb (nextDay d) e = true := by
  obtain ⟨h1, h2, h3, h4⟩ := hd
  obtain ⟨g1, g2, g3, g4⟩ := he
  rw [dltb_iff] at h
  rw [dleb_iff]
  by_cases hsame : e.year = d.year ∧ e.month = d.month
  · have hdm : daysInMonth e.year e.month = daysInMonth d.year d.month := by
      rw [hsame.1, hsame.2]
    unfold nextDay
    split_ifs with hday hm <;> dsimp only <;> omega
  · unfold nextDay
    split_ifs with hday hm <;> dsimp only <;> omega

theorem lastDayOfMonthOf_valid {d : Date} (h : d.Valid) :
    (lastDayOfMonthOf d).Valid := by
  obtain ⟨h1, h2, h3, h4⟩ := h
  exact ⟨h1, h2, daysInMonth_pos _ _, le_refl _⟩

theorem dleb_lastDayOfMonthOf {d : Date} (h : d.Valid) :
    dleb d (lastDayOfMonthOf d) = true := by
  obtain ⟨h1, h2, h3, h4⟩ := h
  rw [dleb_iff]; unfold lastDayOfMonthOf; dsimp only; omega

theorem add7Months_valid {d : Date} (h : d.Valid) : (add7Months d).Valid := by
  obtain ⟨h1, h2, h3, h4⟩ := h
  have p1 := daysInMonth_pos d.year (d.month + 7)
  have p2 := daysInMonth_pos (d.year + 1) (d.month + 7 - 12)
  unfold add7Months Date.Valid
  split_ifs with h7 <;> dsimp only <;> omega

theorem dleb_add7Months {d : Date} (h : d.Valid) : dleb d (add7Months d) = true := by
  obtain ⟨h1, h2, h3, h4⟩ := h
  rw [dleb_iff]
  unfold add7Months
  split_ifs with h7 <;> dsimp only <;> omega

/-! ## The chunking loops

_getRawDailyData (lines 63-80 of research.py) walks from start_date while
current < stop_date; the tentative chunk end is the last day of current's
month, pushed 7 months further in low-precision mode, then clamped to
stop_date by min; the next iteration starts the day after the chunk end.
hip = true is the hiprecision (one month per chunk) mode.
-/

/-- The tentative (unclamped) chunk end: the last day of current's month,
pushed 7 further months unless hiprecision. -/
def tentativeEnd (current : Date) (hip : Bool) : Date :=
  if hip then lastDayOfMonthOf current else add7Months (lastDayOfMonthOf current)

/-- The end date of the chunk starting at current. -/
def chunkEnd (stop current : Date) (hip : Bool) : Date :=
  dmin stop (tentativeEnd current hip)

/-- The while loop of _getRawDailyData, with explicit fuel.  Sufficient fuel
(dcode stop + 1 - dcode start) makes it compute the loop's actual result. -/
def chunkLoop (hip : Bool) (stop : Date) : Nat → Date → List (Date × Date)
  | 0, _ => []
  | fuel + 1, current =>
    if dltb current stop then
      (current, chunkEnd stop current hip) ::
        chunkLoop hip stop fuel (nextDay (chunkEnd stop current hip))
    else []

/-- The chunk list produced by the loop of _getRawDailyData for a given
start date and (already clamped) stop date. -/
def rawChunks (start stop : Date) (hip : Bool) : List (Date × Date) :=
  chunkLoop hip stop (dcode stop + 1 - dcode start) start

/-- Chunks of _getRawDailyData(word, start_year, stop_year, ...): the start is
January 1 of start_year and the stop is min(date(stop_year, 12, 31), today). -/
def getRawDailyChunks (sy ey : Nat) (today : Date) (hip : Bool) : List (Date × Date) :=
  rawChunks ⟨sy, 1, 1⟩ (dmin ⟨ey, 12, 31⟩ today) hip

theorem dmin_eq_or (a b : Date) : dmin a b = a ∨ dmin a b = b := by
  unfold dmin; split <;> simp

theorem dmin_le_left (a b : Date) : dleb (dmin a b) a = true := by
  unfold dmin
  split
  · exact dleb_refl a
  · next h => exact dleb_of_dltb (dltb_of_not_dleb h)

theorem dmin_le_right (a b : Date) : dleb (dmin a b) b = true := by
  unfold dmin
  split
  · next h => exact h
  · exact dleb_refl b

theorem dleb_dmin {a b c : Date} (h1 : dleb c a = true) (h2 : dleb c b = true) :
    dleb c (dmin a b) = true := by
  unfold dmin; split <;> assumption

theorem tentativeEnd_valid {current : Date} (hcur : current.Valid) (hip : Bool) :
    (tentativeEnd current hip).Valid := by
  unfold tentativeEnd
  cases hip
  · exact add7Months_valid (lastDayOfMonthOf_valid hcur)
  · exact lastDayOfMonthOf_valid hcur

theorem dleb_tentativeEnd {current : Date} (hcur : current.Valid) (hip : Bool) :
    dleb current (tentativeEnd current hip) = true := by
  unfold tentativeEnd
  cases hip
  · exact dleb_trans (dleb_lastDayOfMonthOf hcur)
      (dleb_add7Months (lastDayOfMonthOf_valid hcur))
  · exact dleb_lastDayOfMonthOf hcur

theorem chunkEnd_valid {stop current : Date} (hstop : stop.Valid)
    (hcur : current.Valid) (hip : Bool) : (chunkEnd stop current hip).Valid := by
  unfold chunkEnd
  rcases dmin_eq_or stop (tentativeEnd current hip) with h | h <;> rw [h]
  · exact hstop
  · exact tentativeEnd_valid hcur hip

theorem dleb_chunkEnd {stop current : Date}
    (hcur : current.Valid) (hlt : dltb current stop = true) (hip : Bool) :
    dleb current (chunkEnd stop current hip) = true :=
  dleb_dmin (dleb_of_dltb hlt) (dleb_tentativeEnd hcur hip)

theorem chunkEnd_le_stop (stop current : Date) (hip : Bool) :
    dleb (chunkEnd stop current hip) stop = true :=
  dmin_le_left stop (tentativeEnd current hip)

theorem dcode_le_of_dleb {a b : Date} (ha : a.Valid) (hb : b.Valid)
    (h : dleb a b = true) : dcode a ≤ dcode b := by
  obtain ⟨_, ham, _, had⟩ := ha
  obtain ⟨_, hbm, _, hbd⟩ := hb
  have h31a := daysInMonth_le_31 a.year a.month
  have h31b := daysInMonth_le_31 b.year b.month
  rw [dleb_iff] at h
  unfold dcode
  omega

theorem dltb_of_dleb_of_dltb {a b c : Date}
    (h1 : dleb a b = true) (h2 : dltb b c = true) : dltb a c = true := by
  rw [dleb_iff] at h1; rw [dltb_iff] at *; omega

/-- Main invariant of the chunking while-loop: with sufficient fuel, the
produced chunks are well-formed, lie between current and stop, consecutive
chunks are adjacent (the next starts the day after the previous ends), the
list is strictly ordered (hence non-overlapping), and every valid day d with
current ≤ d < stop is covered by some chunk. -/
theorem chunkLoop_spec (hip : Bool) (stop : Date) (hstop : stop.Valid) :
    ∀ (fuel : Nat) (current : Date), current.Valid →
      dcode stop ≤ dcode current + fuel →
      (∀ c ∈ chunkLoop hip stop fuel current,
          c.1.Valid ∧ c.2.Valid ∧ dleb c.1 c.2 = true ∧
          dleb current c.1 = true ∧ dleb c.2 stop = true) ∧
      List.Chain' (fun c c2 => c2.1 = nextDay c.2) (chunkLoop hip stop fuel current) ∧
      List.Pairwise (fun c c2 => dltb c.2 c2.1 = true) (chunkLoop hip stop fuel current) ∧
      (∀ d : Date, d.Valid → dleb current d = true → dltb d stop = true →
        ∃ c ∈ chunkLoop hip stop fuel current, dleb c.1 d = true ∧ dleb d c.2 = true) ∧
      (∀ c cs, chunkLoop hip stop fuel current = c :: cs → c.1 = current) := by
  intro fuel
  induction fuel with
  | zero =>
    intro current hcur hfuel
    refine ⟨by simp [chunkLoop], by simp [chunkLoop], by simp [chunkLoop], ?_, by simp [chunkLoop]⟩
    intro d hd hcd hds
    exfalso
    have h1 := dcode_le_of_dleb hcur hd hcd
    have h2 := dcode_lt_of_dltb hd hstop hds
    omega
  | succ fuel ih =>
    intro current hcur hfuel
    by_cases hlt : dltb current stop = true
    · have hstep : chunkLoop hip stop (fuel + 1) current =
          if dltb current stop = true then
            (current, chunkEnd stop current hip) ::
              chunkLoop hip stop fuel (nextDay (chunkEnd stop current hip))
          else [] := rfl
      have hloop : chunkLoop hip stop (fuel + 1) current =
          (current, chunkEnd stop current hip) ::
            chunkLoop hip stop fuel (nextDay (chunkEnd stop current hip)) := by
        rw [hstep, if_pos hlt]
      set e := chunkEnd stop current hip with he_def
      have he_valid : e.Valid := chunkEnd_valid hstop hcur hip
      have hce : dleb current e = true := dleb_chunkEnd hcur hlt hip
      have hes : dleb e stop = true := chunkEnd_le_stop stop current hip
      have hnext_valid : (nextDay e).Valid := nextDay_valid he_valid
      have he_next : dltb e (nextDay e) = true := dltb_nextDay he_valid
      have hfuel2 : dcode stop ≤ dcode (nextDay e) + fuel := by
        have q1 := dcode_le_of_dleb hcur he_valid hce
        have q2 := dcode_nextDay he_valid
        omega
      obtain ⟨ih1, ih2, ih3, ih4, ih5⟩ := ih (nextDay e) hnext_valid hfuel2
      rw [hloop]
      refine ⟨?_, ?_, ?_, ?_, ?_⟩
      · intro c hc
        rcases List.mem_cons.mp hc with hc | hc
        · rw [hc]
          exact ⟨hcur, he_valid, hce, dleb_refl current, hes⟩
        · obtain ⟨v1, v2, v3, v4, v5⟩ := ih1 c hc
          refine ⟨v1, v2, v3, ?_, v5⟩
          exact dleb_trans hce (dleb_trans (dleb_of_dltb he_next) v4)
      · refine List.chain'_cons'.mpr ⟨?_, ih2⟩
        intro y hy
        have hy2 : ∃ cs, chunkLoop hip stop fuel (nextDay e) = y :: cs := by
          cases hh : chunkLoop hip stop fuel (nextDay e) with
          | nil => rw [hh] at hy; simp at hy
          | cons a cs =>
            rw [hh] at hy
            simp at hy
            exact ⟨cs, by rw [hy]⟩
        obtain ⟨cs, hcs⟩ := hy2
        exact ih5 y cs hcs
      · refine List.pairwise_cons.mpr ⟨?_, ih3⟩
        intro c hc
        have v4 := (ih1 c hc).2.2.2.1
        exact dltb_of_dltb_of_dleb he_next v4
      · intro d hd hcd hds
        by_cases hde : dleb d e = true
        · exact ⟨(current, e), List.mem_cons_self _ _, hcd, hde⟩
        · have hed : dltb e d = true := dltb_of_not_dleb hde
          have hnd : dleb (nextDay e) d = true := nextDay_le_of_lt he_valid hd hed
          obtain ⟨c, hc, hc1, hc2⟩ := ih4 d hd hnd hds
          exact ⟨c, List.mem_cons_of_mem _ hc, hc1, hc2⟩
      · intro c cs hccs
        have := List.cons.injEq (current, e) (chunkLoop hip stop fuel (nextDay e)) c cs
        rw [this] at hccs
        rw [← hccs.1]
    · have hloop : chunkLoop hip stop (fuel + 1) current = [] := by
        unfold chunkLoop
        rw [if_neg hlt]
      rw [hloop]
      refine ⟨by simp, by simp, by simp, ?_, by simp⟩
      intro d hd hcd hds
      exact absurd (dltb_of_dleb_of_dltb hcd hds) hlt

/-! ### The low-precision chunk-end rule

With hip = false and a start on January 1, every chunk start the loop ever
reaches is the first day of January, May or September; for such starts the
tentative end add7Months(lastDayOfMonthOf start) is exactly the last day of
the month 7 months later. -/

theorem daysInMonth_one (y : Nat) : daysInMonth y 1 = 31 := by simp [daysInMonth]

theorem daysInMonth_four (y : Nat) : daysInMonth y 4 = 30 := by simp [daysInMonth]

theorem daysInMonth_five (y : Nat) : daysInMonth y 5 = 31 := by simp [daysInMonth]

theorem daysInMonth_eight (y : Nat) : daysInMonth y 8 = 31 := by simp [daysInMonth]

theorem daysInMonth_nine (y : Nat) : daysInMonth y 9 = 30 := by simp [daysInMonth]

theorem daysInMonth_twelve (y : Nat) : daysInMonth y 12 = 31 := by simp [daysInMonth]

/-- Chunk starts reachable in low-precision mode from a January 1 start. -/
def StartOk (d : Date) : Prop :=
  d.day = 1 ∧ (d.month = 1 ∨ d.month = 5 ∨ d.month = 9)

theorem tentativeEnd_eq_monthAfter7End {d : Date} (h : StartOk d) :
    tentativeEnd d false = monthAfter7End d := by
  obtain ⟨hday, hmon⟩ := h
  have hd : d = ⟨d.year, d.month, 1⟩ := by cases d; simp_all
  rcases hmon with hm | hm | hm <;>
    (rw [hd, hm]
     unfold tentativeEnd add7Months lastDayOfMonthOf monthAfter7End
     simp [daysInMonth])

theorem startOk_nextDay_monthAfter7End {d : Date} (h : StartOk d) :
    StartOk (nextDay (monthAfter7End d)) := by
  obtain ⟨hday, hmon⟩ := h
  rcases hmon with hm | hm | hm <;>
    (unfold monthAfter7End nextDay StartOk
     rw [hm]
     simp [daysInMonth])

/-- In low-precision mode, every chunk produced from a StartOk start has end
min(stop, last day of the month 7 months after the chunk start's month). -/
theorem chunkLoop_lowprec_ends (stop : Date) (hstop : stop.Valid) :
    ∀ (fuel : Nat) (current : Date), current.Valid →
      (StartOk current ∨ dltb current stop = false) →
      ∀ c ∈ chunkLoop false stop fuel current,
        c.2 = dmin stop (monthAfter7End c.1) := by
  intro fuel
  induction fuel with
  | zero => intro current _ _ c hc; simp [chunkLoop] at hc
  | succ fuel ih =>
    intro current hcur hok c hc
    by_cases hlt : dltb current stop = true
    · have hokc : StartOk current := by
        rcases hok with h | h
        · exact h
        · rw [hlt] at h; exact absurd h (by simp)
      have hstep : chunkLoop false stop (fuel + 1) current =
          if dltb current stop = true then
            (current, chunkEnd stop current false) ::
              chunkLoop false stop fuel (nextDay (chunkEnd stop current false))
          else [] := rfl
      rw [hstep, if_pos hlt] at hc
      have hend : chunkEnd stop current false = dmin stop (monthAfter7End current) := by
        unfold chunkEnd
        rw [tentativeEnd_eq_monthAfter7End hokc]
      rcases List.mem_cons.mp hc with hhd | htl
      · rw [hhd]
        dsimp only
        exact hend
      · have hnv : (nextDay (chunkEnd stop current false)).Valid :=
          nextDay_valid (chunkEnd_valid hstop hcur false)
        have hinv : StartOk (nextDay (chunkEnd stop current false)) ∨
            dltb (nextDay (chunkEnd stop current false)) stop = false := by
          rw [hend]
          rcases dmin_eq_or stop (monthAfter7End current) with hmm | hmm <;> rw [hmm]
          · right
            exact not_dltb_of_dleb (dleb_of_dltb (dltb_nextDay hstop))
          · left
            exact startOk_nextDay_monthAfter7End hokc
        exact ih (nextDay (chunkEnd stop current false)) hnv hinv c htl
    · have hstep : chunkLoop false stop (fuel + 1) current =
          if dltb current stop = true then
            (current, chunkEnd stop current false) ::
              chunkLoop false stop fuel (nextDay (chunkEnd stop current false))
          else [] := rfl
      rw [hstep, if_neg hlt] at hc
      simp at hc

/-! ## Chunker claim theorems -/

theorem date_jan1_valid (y : Nat) : (⟨y, 1, 1⟩ : Date).Valid := by
  unfold Date.Valid
  dsimp only
  rw [daysInMonth_one]
  omega

theorem date_dec31_valid (y : Nat) : (⟨y, 12, 31⟩ : Date).Valid := by
  unfold Date.Valid
  dsimp only
  rw [daysInMonth_twelve]
  omega

theorem dmin_valid {a b : Date} (ha : a.Valid) (hb : b.Valid) : (dmin a b).Valid := by
  rcases dmin_eq_or a b with h | h <;> rw [h] <;> assumption

/-- C2 (counterexample).  The claim asserts that for every start ≤ stop the
union of the produced chunks' days equals the closed interval
[start, min(stop, today)].  Running _getRawDailyData's chunking loop with
start_year = stop_year = 2020 on a "today" of 2020-01-01 gives
start = stop = 2020-01-01, yet the loop (whose guard is the strict
current < stop_date) produces no chunk at all, so the day 2020-01-01 of the
claimed interval is not covered. -/
theorem chunker_union_counterexample :
    getRawDailyChunks 2020 2020 ⟨2020, 1, 1⟩ false = [] ∧
    dleb ⟨2020, 1, 1⟩ (dmin ⟨2020, 12, 31⟩ ⟨2020, 1, 1⟩) = true ∧
    ¬ ∃ c ∈ getRawDailyChunks 2020 2020 ⟨2020, 1, 1⟩ false,
        dleb c.1 ⟨2020, 1, 1⟩ = true ∧ dleb ⟨2020, 1, 1⟩ c.2 = true := by
  refine ⟨by decide, by decide, by decide⟩

/-- C2 (amended).  For every valid start ≤ stop (stop being the already
today-clamped stop date) the chunking loop of _getRawDailyData returns
chunks that are well-formed (start ≤ end), lie inside [start, stop],
are chronologically ordered and pairwise non-overlapping, with each chunk
starting the day after the previous one ends, and whose union of days
contains the half-open interval [start, stop); the final day stop itself
can be left uncovered (exactly when the loop guard current < stop_date
exits with current = stop), so the union is [start, stop] or [start, stop)
rather than always the full closed interval. -/
theorem chunker_coverage_amended (start stop : Date) (hip : Bool)
    (hs : start.Valid) (he : stop.Valid) (hse : dleb start stop = true) :
    (∀ c ∈ rawChunks start stop hip,
        c.1.Valid ∧ c.2.Valid ∧ dleb c.1 c.2 = true ∧
        dleb start c.1 = true ∧ dleb c.2 stop = true) ∧
    List.Pairwise (fun c c2 => dltb c.2 c2.1 = true) (rawChunks start stop hip) ∧
    List.Chain' (fun c c2 => c2.1 = nextDay c.2) (rawChunks start stop hip) ∧
    (∀ d : Date, d.Valid → dleb start d = true → dltb d stop = true →
      ∃ c ∈ rawChunks start stop hip, dleb c.1 d = true ∧ dleb d c.2 = true) := by
  have hfuel : dcode stop ≤ dcode start + (dcode stop + 1 - dcode start) := by omega
  obtain ⟨h1, h2, h3, h4, _⟩ :=
    chunkLoop_spec hip stop he (dcode stop + 1 - dcode start) start hs hfuel
  exact ⟨h1, h3, h2, h4⟩

theorem chunker_coverage_amended_witness :
    ∃ c ∈ rawChunks ⟨2020, 1, 1⟩ ⟨2020, 3, 15⟩ true,
      dleb c.1 ⟨2020, 2, 10⟩ = true ∧ dleb ⟨2020, 2, 10⟩ c.2 = true :=
  (chunker_coverage_amended ⟨2020, 1, 1⟩ ⟨2020, 3, 15⟩ true (by decide) (by decide)
    (by decide)).2.2.2 ⟨2020, 2, 10⟩ (by decide) (by decide) (by decide)

/-- C3.  In low-precision mode (8-month chunks) every chunk produced by the
loop of _getRawDailyData (which always starts on January 1 of start_year)
ends at the last day of the calendar month 7 months after the month of the
chunk's start, clamped to the stop date, and each subsequent chunk starts
the day after the previous chunk's end; for start_year = stop_year = 2020
(with today at or after 2020-12-31) the loop yields exactly the chunks
(2020-01-01, 2020-08-31) and (2020-09-01, 2020-12-31). -/
theorem chunk_end_rule (sy ey : Nat) (today : Date) (htoday : today.Valid)
    (hy : dleb ⟨2020, 12, 31⟩ today = true) :
    (∀ c ∈ getRawDailyChunks sy ey today false,
        c.2 = dmin (dmin ⟨ey, 12, 31⟩ today) (monthAfter7End c.1)) ∧
    List.Chain' (fun c c2 => c2.1 = nextDay c.2) (getRawDailyChunks sy ey today false) ∧
    getRawDailyChunks 2020 2020 today false =
      [(⟨2020, 1, 1⟩, ⟨2020, 8, 31⟩), (⟨2020, 9, 1⟩, ⟨2020, 12, 31⟩)] := by
  have hstop : (dmin ⟨ey, 12, 31⟩ today).Valid := dmin_valid (date_dec31_valid ey) htoday
  have hstart : (⟨sy, 1, 1⟩ : Date).Valid := date_jan1_valid sy
  refine ⟨?_, ?_, ?_⟩
  · intro c hc
    exact chunkLoop_lowprec_ends (dmin ⟨ey, 12, 31⟩ today) hstop _ ⟨sy, 1, 1⟩ hstart
      (Or.inl ⟨rfl, Or.inl rfl⟩) c hc
  · have hfuel : dcode (dmin ⟨ey, 12, 31⟩ today) ≤ dcode ⟨sy, 1, 1⟩ +
        (dcode (dmin ⟨ey, 12, 31⟩ today) + 1 - dcode ⟨sy, 1, 1⟩) := by omega
    exact (chunkLoop_spec false (dmin ⟨ey, 12, 31⟩ today) hstop _ ⟨sy, 1, 1⟩ hstart
      hfuel).2.1
  · have hstop20 : dmin ⟨2020, 12, 31⟩ today = ⟨2020, 12, 31⟩ := by
      unfold dmin
      rw [if_pos hy]
    unfold getRawDailyChunks
    rw [hstop20]
    decide

theorem chunk_end_rule_witness :
    getRawDailyChunks 2020 2020 ⟨2026, 10, 12⟩ false =
      [(⟨2020, 1, 1⟩, ⟨2020, 8, 31⟩), (⟨2020, 9, 1⟩, ⟨2020, 12, 31⟩)] :=
  (chunk_end_rule 2020 2020 ⟨2026, 10, 12⟩ (by decide) (by decide)).2.2

/-! ## Pandas value model

A cell of a pandas float column: NaN (which pandas also uses as the missing
value), the two infinities, or a finite value (idealised as an exact
rational).  Arithmetic follows IEEE-754 / numpy semantics: NaN propagates,
finite division by zero yields a signed infinity (0/0 yields NaN), and
0 * inf yields NaN. -/

inductive PVal where
  | nan : PVal
  | pinf : PVal
  | ninf : PVal
  | num : ℚ → PVal
deriving DecidableEq, Repr

def PVal.isNaN : PVal → Bool
  | .nan => true
  | _ => false

def padd : PVal → PVal → PVal
  | .nan, _ => .nan
  | _, .nan => .nan
  | .pinf, .ninf => .nan
  | .ninf, .pinf => .nan
  | .pinf, _ => .pinf
  | _, .pinf => .pinf
  | .ninf, _ => .ninf
  | _, .ninf => .ninf
  | .num a, .num b => .num (a + b)

def pmul : PVal → PVal → PVal
  | .nan, _ => .nan
  | _, .nan => .nan
  | .num a, .num b => .num (a * b)
  | .num a, .pinf => if a = 0 then .nan else if 0 < a then .pinf else .ninf
  | .pinf, .num a => if a = 0 then .nan else if 0 < a then .pinf else .ninf
  | .num a, .ninf => if a = 0 then .nan else if 0 < a then .ninf else .pinf
  | .ninf, .num a => if a = 0 then .nan else if 0 < a then .ninf else .pinf
  | .pinf, .pinf => .pinf
  | .pinf, .ninf => .ninf
  | .ninf, .pinf => .ninf
  | .ninf, .ninf => .pinf

def pdiv : PVal → PVal → PVal
  | .nan, _ => .nan
  | _, .nan => .nan
  | .num a, .num b =>
      if b = 0 then (if a = 0 then .nan else if 0 < a then .pinf else .ninf)
      else .num (a / b)
  | .pinf, .num b => if 0 ≤ b then .pinf else .ninf
  | .ninf, .num b => if 0 ≤ b then .ninf else .pinf
  | .num _, .pinf => .num 0
  | .num _, .ninf => .num 0
  | _, _ => .nan

theorem padd_num_num (a b : ℚ) : padd (.num a) (.num b) = .num (a + b) := rfl

theorem pmul_num_num (a b : ℚ) : pmul (.num a) (.num b) = .num (a * b) := rfl

theorem pdiv_num_num (a b : ℚ) (hb : b ≠ 0) : pdiv (.num a) (.num b) = .num (a / b) := by
  have h : pdiv (.num a) (.num b) =
      if b = 0 then (if a = 0 then PVal.nan else if 0 < a then PVal.pinf else PVal.ninf)
      else .num (a / b) := rfl
  rw [h, if_neg hb]

theorem pdiv_num_zero_pos (a : ℚ) (ha : 0 < a) : pdiv (.num a) (.num 0) = .pinf := by
  have h : pdiv (.num a) (.num 0) =
      if (0 : ℚ) = 0 then (if a = 0 then PVal.nan else if 0 < a then PVal.pinf else PVal.ninf)
      else .num (a / 0) := rfl
  rw [h, if_pos rfl, if_neg (ne_of_gt ha), if_pos ha]

theorem pmul_num_zero_pinf : pmul (.num 0) .pinf = .nan := by
  have h : pmul (.num 0) .pinf =
      if (0 : ℚ) = 0 then PVal.nan else if 0 < (0 : ℚ) then PVal.pinf else PVal.ninf := rfl
  rw [h, if_pos rfl]

/-- Sum of the non-NaN entries of a column slice (pandas sums with
skipna = True). -/
def psum (l : List PVal) : PVal :=
  (l.filter (fun v => !v.isNaN)).foldl padd (.num 0)

/-- pandas mean with skipna = True: NaN if no non-NaN entry, otherwise the
sum of the non-NaN entries divided by their count. -/
def pmean (l : List PVal) : PVal :=
  if (l.filter (fun v => !v.isNaN)).length = 0 then .nan
  else pdiv (psum l) (.num ((l.filter (fun v => !v.isNaN)).length : ℚ))

/-! ### The median (pandas T.median(), skipna) -/

/-- Sort key placing -inf below all finite values and +inf above (NaN values
are filtered out before sorting). -/
def pleb (a b : PVal) : Bool :=
  match a, b with
  | .nan, _ => true
  | _, .nan => false
  | .ninf, _ => true
  | _, .ninf => false
  | .num x, .num y => decide (x ≤ y)
  | .num _, .pinf => true
  | .pinf, .num _ => false
  | .pinf, .pinf => true

def insertP (a : PVal) : List PVal → List PVal
  | [] => [a]
  | b :: l => if pleb a b then a :: b :: l else b :: insertP a l

def sortP : List PVal → List PVal
  | [] => []
  | a :: l => insertP a (sortP l)

/-- pandas median with skipna = True: drop NaN entries, sort, take the middle
element (odd count) or the average of the two middle elements (even count);
NaN when no entry remains. -/
def pmedian (l : List PVal) : PVal :=
  let ws := sortP (l.filter (fun v => !v.isNaN))
  let n := ws.length
  if n = 0 then .nan
  else if n % 2 = 1 then ws.getD (n / 2) .nan
  else pdiv (padd (ws.getD (n / 2 - 1) .nan) (ws.getD (n / 2) .nan)) (.num 2)

/-! ### Forward fill along a date index

ffill carries the last preceding non-NaN value of a column forward.  A
column is a valuation function; ffillCol walks the index rows in order and
returns the filled value at the first row equal to d. -/

def ffillAux (col : Date → PVal) : PVal → List Date → Date → PVal
  | _, [], _ => .nan
  | prev, e :: rest, d =>
    let v := if (col e).isNaN then prev else col e
    if e = d then v else ffillAux col v rest d

def ffillCol (idx : List Date) (col : Date → PVal) (d : Date) : PVal :=
  ffillAux col .nan idx d

/-! ## The scaling engine of getDailyDataOnce (research.py lines 158-170)

The concatenated daily data is a date index idx together with a raw value
function; the monthly baseline fetched in one go is a date index mIdx (the
month starts of the fetched range) with values mVal.

daily.resample('M').mean() assigns each calendar month its mean of the daily
values; re-indexed to month starts and assigned into the daily frame it
yields a column with that mean at each first-of-month row and NaN elsewhere
(every month-start row of the daily index lies within the resample span, so
the span restriction is vacuous there), which ffill then carries forward.
The joined monthly column holds mVal at rows belonging to mIdx and NaN
elsewhere and is likewise ffilled.  Then
scale = monthly / avg and scaled = unscaled * scale, per row. -/

def monthOf (d : Date) : Nat × Nat := (d.year, d.month)

def monthDays (idx : List Date) (d : Date) : List Date :=
  idx.filter (fun e => monthOf e = monthOf d)

def onceAvgPre (idx : List Date) (raw : Date → PVal) (d : Date) : PVal :=
  if d.day = 1 then pmean ((monthDays idx d).map raw) else .nan

def onceAvg (idx : List Date) (raw : Date → PVal) (d : Date) : PVal :=
  ffillCol idx (onceAvgPre idx raw) d

def onceMonPre (mIdx : List Date) (mVal : Date → PVal) (d : Date) : PVal :=
  if d ∈ mIdx then mVal d else .nan

def onceMon (idx mIdx : List Date) (mVal : Date → PVal) (d : Date) : PVal :=
  ffillCol idx (onceMonPre mIdx mVal) d

def onceScale (idx : List Date) (raw : Date → PVal) (mIdx : List Date)
    (mVal : Date → PVal) (d : Date) : PVal :=
  pdiv (onceMon idx mIdx mVal d) (onceAvg idx raw d)

def onceScaled (idx : List Date) (raw : Date → PVal) (mIdx : List Date)
    (mVal : Date → PVal) (d : Date) : PVal :=
  pmul (raw d) (onceScale idx raw mIdx mVal d)

/-- One output row of getDailyDataOnce: the unscaled daily value, the
(ffilled) monthly baseline, the scale and the scaled daily value. -/
structure OnceRow where
  unscaled : PVal
  monthly : PVal
  scale : PVal
  scaled : PVal
deriving DecidableEq, Repr

/-- The four-column output table of getDailyDataOnce, one row per date of the
daily index. -/
def onceTable (idx : List Date) (raw : Date → PVal) (mIdx : List Date)
    (mVal : Date → PVal) : List (Date × OnceRow) :=
  idx.map (fun d =>
    (d, ⟨raw d, onceMon idx mIdx mVal d, onceScale idx raw mIdx mVal d,
      onceScaled idx raw mIdx mVal d⟩))

/-! ### ffill lemmas -/

theorem ffillAux_cons (col : Date → PVal) (prev : PVal) (e : Date)
    (rest : List Date) (d : Date) :
    ffillAux col prev (e :: rest) d =
      if e = d then (if (col e).isNaN then prev else col e)
      else ffillAux col (if (col e).isNaN then prev else col e) rest d := rfl

/-- Walking rows that are all NaN (up to the target) leaves the carried
value unchanged. -/
theorem ffillAux_skip (col : Date → PVal) :
    ∀ (b : List Date) (prev : PVal) (d : Date),
      List.Pairwise (fun x y => dltb x y = true) b → d ∈ b →
      (∀ e ∈ b, dleb e d = true → (col e).isNaN = true) →
      ffillAux col prev b d = prev := by
  intro b
  induction b with
  | nil => intro prev d _ hd _; simp at hd
  | cons e rest ih =>
    intro prev d hpw hd hnan
    obtain ⟨hhead, htail⟩ := List.pairwise_cons.mp hpw
    rw [ffillAux_cons]
    by_cases hed : e = d
    · have hn : (col e).isNaN = true :=
        hnan e (List.mem_cons_self e rest) (by rw [hed]; exact dleb_refl d)
      rw [if_pos hed, if_pos hn]
    · have hdrest : d ∈ rest := by
        rcases List.mem_cons.mp hd with h | h
        · exact absurd h.symm hed
        · exact h
      have hn : (col e).isNaN = true :=
        hnan e (List.mem_cons_self e rest) (dleb_of_dltb (hhead d hdrest))
      rw [if_neg hed, if_pos hn]
      exact ih prev d htail hdrest (fun x hx hxd => hnan x (List.mem_cons_of_mem e hx) hxd)

/-- ffill lands on the value of the last row at or before the target whose
column value is defined. -/
theorem ffillAux_lands (col : Date → PVal) (fm d : Date) (b : List Date)
    (hfm_val : (col fm).isNaN = false) :
    ∀ (a : List Date) (prev : PVal),
      (∀ e ∈ a, e ≠ d) →
      (d = fm ∨ d ∈ b) →
      List.Pairwise (fun x y => dltb x y = true) (fm :: b) →
      (∀ e ∈ b, dleb e d = true → (col e).isNaN = true) →
      ffillAux col prev (a ++ fm :: b) d = col fm := by
  intro a
  induction a with
  | nil =>
    intro prev _ hd hpw hnan
    rw [List.nil_append, ffillAux_cons]
    obtain ⟨hhead, htail⟩ := List.pairwise_cons.mp hpw
    have hv : (if (col fm).isNaN = true then prev else col fm) = col fm := by
      rw [hfm_val]
      simp
    rcases hd with hdf | hdb
    · rw [if_pos hdf.symm, hv]
    · have hfmd : ¬ fm = d := by
        intro h
        have h2 := hhead d hdb
        rw [h, dltb_irrefl] at h2
        exact absurd h2 (by simp)
      rw [if_neg hfmd, hv]
      exact ffillAux_skip col b (col fm) d htail hdb hnan
  | cons x a ih =>
    intro prev hne hd hpw hnan
    rw [List.cons_append, ffillAux_cons,
      if_neg (hne x (List.mem_cons_self x a))]
    exact ih _ (fun e he => hne e (List.mem_cons_of_mem x he)) hd hpw hnan

/-- The first day of d's month. -/
def firstOfMonth (d : Date) : Date := ⟨d.year, d.month, 1⟩

/-- On a strictly sorted index containing d and the first day of d's month,
ffill evaluates at d to the column's value at that month start, provided the
column is defined there and undefined at every strictly later row up to d. -/
theorem ffillCol_month_start (idx : List Date) (col : Date → PVal) (d : Date)
    (hsort : List.Pairwise (fun x y => dltb x y = true) idx)
    (hd : d ∈ idx) (hday : 1 ≤ d.day)
    (hfm : firstOfMonth d ∈ idx)
    (hfm_val : (col (firstOfMonth d)).isNaN = false)
    (hothers : ∀ e ∈ idx, dltb (firstOfMonth d) e = true → dleb e d = true →
      (col e).isNaN = true) :
    ffillCol idx col d = col (firstOfMonth d) := by
  obtain ⟨a, b, hab⟩ := List.append_of_mem hfm
  have hfmd : dleb (firstOfMonth d) d = true := by
    rw [dleb_iff]
    unfold firstOfMonth
    dsimp only
    omega
  have hpw : List.Pairwise (fun x y => dltb x y = true) (a ++ firstOfMonth d :: b) := by
    rw [← hab]; exact hsort
  have hpwr := (List.pairwise_append.mp hpw).2.1
  have hcross := (List.pairwise_append.mp hpw).2.2
  have hne : ∀ e ∈ a, e ≠ d := by
    intro e he heq
    have h1 : dltb e (firstOfMonth d) = true :=
      hcross e he (firstOfMonth d) (List.mem_cons_self _ _)
    have h2 : dltb e e = true := dltb_of_dltb_of_dleb h1 (heq ▸ hfmd)
    rw [dltb_irrefl] at h2
    exact absurd h2 (by simp)
  have hdm : d = firstOfMonth d ∨ d ∈ b := by
    rw [hab] at hd
    rcases List.mem_append.mp hd with h | h
    · exact absurd rfl (hne d h)
    · rcases List.mem_cons.mp h with h | h
      · exact Or.inl h
      · exact Or.inr h
  have hnan : ∀ e ∈ b, dleb e d = true → (col e).isNaN = true := by
    intro e he hed
    refine hothers e ?_ ?_ hed
    · rw [hab]
      exact List.mem_append.mpr (Or.inr (List.mem_cons_of_mem _ he))
    · exact (List.pairwise_cons.mp hpwr).1 e he
  unfold ffillCol
  rw [hab]
  exact ffillAux_lands col (firstOfMonth d) d b hfm_val a .nan hne hdm hpwr hnan

/-! ### Mean computation lemmas -/

theorem psum_map_num (f : Date → ℚ) :
    ∀ (l : List Date) (c : ℚ),
      (l.map (fun e => PVal.num (f e))).foldl padd (.num c) = .num (c + (l.map f).sum) := by
  intro l
  induction l with
  | nil => intro c; simp
  | cons e rest ih =>
    intro c
    rw [List.map_cons, List.foldl_cons, List.map_cons, List.sum_cons]
    have : padd (.num c) (.num (f e)) = .num (c + f e) := rfl
    rw [this, ih (c + f e), add_assoc]

theorem pmean_map_num (f : Date → ℚ) (l : List Date) (hne : l ≠ []) :
    pmean (l.map (fun e => PVal.num (f e))) =
      .num ((l.map f).sum / (l.length : ℚ)) := by
  have hfilter : (l.map (fun e => PVal.num (f e))).filter (fun v => !v.isNaN) =
      l.map (fun e => PVal.num (f e)) := by
    rw [List.filter_eq_self]
    intro a ha
    obtain ⟨e, _, rfl⟩ := List.mem_map.mp ha
    rfl
  have hlen : (l.map (fun e => PVal.num (f e))).length = l.length := List.length_map _ _
  have hl0 : l.length ≠ 0 := by
    intro h0
    exact hne (List.eq_nil_of_length_eq_zero h0)
  have hlq : ((l.length : ℚ)) ≠ 0 := by exact_mod_cast hl0
  unfold pmean psum
  rw [hfilter, hlen, if_neg hl0, psum_map_num f l 0, zero_add, pdiv_num_num _ _ hlq]

/-! ### Evaluating the engine columns under the C1 hypotheses -/

/-- The observed monthly mean of the raw daily data, as an exact rational. -/
def monthMeanQ (idx : List Date) (rawQ : Date → ℚ) (d : Date) : ℚ :=
  ((monthDays idx d).map rawQ).sum / ((monthDays idx d).length : ℚ)

theorem monthDays_congr (idx : List Date) {e d : Date} (h : monthOf e = monthOf d) :
    monthDays idx e = monthDays idx d := by
  unfold monthDays
  congr 1
  funext x
  rw [h]

theorem monthOf_firstOfMonth (d : Date) : monthOf (firstOfMonth d) = monthOf d := rfl

theorem mem_monthDays_self {idx : List Date} {d : Date} (hd : d ∈ idx) :
    d ∈ monthDays idx d := by
  unfold monthDays
  rw [List.mem_filter]
  exact ⟨hd, by simp⟩

theorem monthDays_ne_nil {idx : List Date} {d : Date} (hd : d ∈ idx) :
    monthDays idx d ≠ [] :=
  List.ne_nil_of_mem (mem_monthDays_self hd)

theorem no_between_month_start {d e : Date} (hlt : dltb (firstOfMonth d) e = true)
    (hle : dleb e d = true) (hde : e.day = 1) : False := by
  rw [dltb_iff] at hlt
  rw [dleb_iff] at hle
  unfold firstOfMonth at hlt
  dsimp only at hlt
  omega

theorem onceAvg_eq (idx : List Date) (rawQ : Date → ℚ) (d : Date)
    (hsort : List.Pairwise (fun x y => dltb x y = true) idx)
    (hd : d ∈ idx) (hday1 : 1 ≤ d.day) (hfm : firstOfMonth d ∈ idx) :
    onceAvg idx (fun e => .num (rawQ e)) d = .num (monthMeanQ idx rawQ d) := by
  have hcol : onceAvgPre idx (fun e => .num (rawQ e)) (firstOfMonth d) =
      .num (monthMeanQ idx rawQ d) := by
    unfold onceAvgPre
    rw [if_pos (show (firstOfMonth d).day = 1 from rfl),
      monthDays_congr idx (monthOf_firstOfMonth d)]
    exact pmean_map_num rawQ (monthDays idx d) (monthDays_ne_nil hd)
  unfold onceAvg
  rw [ffillCol_month_start idx _ d hsort hd hday1 hfm (by rw [hcol]; rfl) ?_, hcol]
  intro e he hlt hle
  unfold onceAvgPre
  split_ifs with hde
  · exact absurd (no_between_month_start hlt hle hde) (fun h => h)
  · rfl

theorem onceMon_eq (idx mIdx : List Date) (mVal : Date → PVal)
    (kOf : Nat × Nat → ℚ) (d : Date)
    (hsort : List.Pairwise (fun x y => dltb x y = true) idx)
    (hd : d ∈ idx) (hday1 : 1 ≤ d.day) (hfm : firstOfMonth d ∈ idx)
    (hmi : ∀ e ∈ idx, (e ∈ mIdx ↔ e.day = 1))
    (hbase : ∀ e ∈ idx, e.day = 1 → mVal e = .num (kOf (monthOf e))) :
    onceMon idx mIdx mVal d = .num (kOf (monthOf d)) := by
  have hcol : onceMonPre mIdx mVal (firstOfMonth d) = .num (kOf (monthOf d)) := by
    unfold onceMonPre
    rw [if_pos ((hmi _ hfm).mpr rfl), hbase _ hfm rfl, monthOf_firstOfMonth]
  unfold onceMon
  rw [ffillCol_month_start idx _ d hsort hd hday1 hfm (by rw [hcol]; rfl) ?_, hcol]
  intro e he hlt hle
  unfold onceMonPre
  split_ifs with hmem
  · exact absurd (no_between_month_start hlt hle ((hmi e he).mp hmem)) (fun h => h)
  · rfl

theorem onceScale_eq (idx mIdx : List Date) (rawQ : Date → ℚ) (mVal : Date → PVal)
    (kOf : Nat × Nat → ℚ) (d : Date)
    (hsort : List.Pairwise (fun x y => dltb x y = true) idx)
    (hd : d ∈ idx) (hday1 : 1 ≤ d.day) (hfm : firstOfMonth d ∈ idx)
    (hmi : ∀ e ∈ idx, (e ∈ mIdx ↔ e.day = 1))
    (hbase : ∀ e ∈ idx, e.day = 1 → mVal e = .num (kOf (monthOf e)))
    (hnzd : monthMeanQ idx rawQ d ≠ 0) :
    onceScale idx (fun e => .num (rawQ e)) mIdx mVal d =
      .num (kOf (monthOf d) / monthMeanQ idx rawQ d) := by
  unfold onceScale
  rw [onceMon_eq idx mIdx mVal kOf d hsort hd hday1 hfm hmi hbase,
    onceAvg_eq idx rawQ d hsort hd hday1 hfm, pdiv_num_num _ _ hnzd]

/-- The mean of a constant column over a month is that constant. -/
theorem monthMeanQ_const (idx : List Date) (c : ℚ) {d : Date} (hd : d ∈ idx) :
    monthMeanQ idx (fun _ => c) d = c := by
  unfold monthMeanQ
  have hn0 : (monthDays idx d).length ≠ 0 := by
    intro h
    exact monthDays_ne_nil hd (List.eq_nil_of_length_eq_zero h)
  have hn : ((monthDays idx d).length : ℚ) ≠ 0 := by exact_mod_cast hn0
  rw [List.map_const', List.sum_replicate, nsmul_eq_mul, mul_comm,
    mul_div_assoc, div_self hn, mul_one]

theorem onceScaled_month_mean (idx mIdx : List Date) (rawQ : Date → ℚ)
    (mVal : Date → PVal) (kOf : Nat × Nat → ℚ) (d : Date)
    (hsort : List.Pairwise (fun x y => dltb x y = true) idx)
    (hd : d ∈ idx) (hday1 : ∀ e ∈ idx, 1 ≤ e.day)
    (hfm : ∀ e ∈ idx, firstOfMonth e ∈ idx)
    (hmi : ∀ e ∈ idx, (e ∈ mIdx ↔ e.day = 1))
    (hbase : ∀ e ∈ idx, e.day = 1 → mVal e = .num (kOf (monthOf e)))
    (hnzd : monthMeanQ idx rawQ d ≠ 0) :
    pmean ((monthDays idx d).map (onceScaled idx (fun e => .num (rawQ e)) mIdx mVal)) =
      .num (kOf (monthOf d)) := by
  have hc : ∀ e ∈ monthDays idx d,
      onceScaled idx (fun e => .num (rawQ e)) mIdx mVal e =
        .num (rawQ e * (kOf (monthOf d) / monthMeanQ idx rawQ d)) := by
    intro e he
    have he_idx : e ∈ idx := (List.mem_filter.mp he).1
    have hmo : monthOf e = monthOf d := of_decide_eq_true (List.mem_filter.mp he).2
    have hmm : monthMeanQ idx rawQ e = monthMeanQ idx rawQ d := by
      unfold monthMeanQ
      rw [monthDays_congr idx hmo]
    unfold onceScaled
    rw [onceScale_eq idx mIdx rawQ mVal kOf e hsort he_idx (hday1 e he_idx)
      (hfm e he_idx) hmi hbase (by rw [hmm]; exact hnzd), hmm, hmo, pmul_num_num]
  rw [List.map_congr_left hc,
    pmean_map_num (fun e => rawQ e * (kOf (monthOf d) / monthMeanQ idx rawQ d)) _
      (monthDays_ne_nil hd)]
  congr 1
  rw [List.sum_map_mul_right]
  have hdef : monthMeanQ idx rawQ d =
      ((monthDays idx d).map rawQ).sum / ((monthDays idx d).length : ℚ) := rfl
  have hn0 : (monthDays idx d).length ≠ 0 := by
    intro h
    exact monthDays_ne_nil hd (List.eq_nil_of_length_eq_zero h)
  have hn : ((monthDays idx d).length : ℚ) ≠ 0 := by exact_mod_cast hn0
  have hS : ((monthDays idx d).map rawQ).sum ≠ 0 := by
    intro h
    apply hnzd
    rw [hdef, h, zero_div]
  rw [hdef]
  field_simp

/-! ### C1 scenario data: baseline [Jan: 10, Feb: 20], constant daily value 5
over a full January and February. -/

def scnIdx : List Date :=
  (List.range 31).map (fun i => ⟨2019, 1, i + 1⟩) ++
    (List.range 28).map (fun i => ⟨2019, 2, i + 1⟩)

def scnMIdx : List Date := [⟨2019, 1, 1⟩, ⟨2019, 2, 1⟩]

def scnMVal : Date → PVal := fun d => if d.month = 1 then .num 10 else .num 20

def scnKOf : Nat × Nat → ℚ := fun ym => if ym.2 = 1 then 10 else 20

theorem scn_sorted : List.Pairwise (fun x y => dltb x y = true) scnIdx := by decide

theorem scn_day1 : ∀ e ∈ scnIdx, 1 ≤ e.day := by decide

theorem scn_fm : ∀ e ∈ scnIdx, firstOfMonth e ∈ scnIdx := by decide

theorem scn_mi : ∀ e ∈ scnIdx, (e ∈ scnMIdx ↔ e.day = 1) := by decide

theorem scn_base : ∀ e ∈ scnIdx, e.day = 1 → scnMVal e = .num (scnKOf (monthOf e)) := by
  intro e _ _
  unfold scnMVal scnKOf monthOf
  dsimp only
  split_ifs <;> rfl

theorem scn_mean (d : Date) (hd : d ∈ scnIdx) :
    monthMeanQ scnIdx (fun _ => (5 : ℚ)) d = 5 :=
  monthMeanQ_const scnIdx 5 hd

/-- C1.  Scaling correctness of the single-pull engine getDailyDataOnce:
whenever the joined monthly baseline column holds the constant k at every
month start of the (sorted, month-start-complete) daily index and each
month's observed mean of the raw daily data is nonzero, the computed scale
column equals k divided by that month's mean at every row, and the monthly
mean of the scaled output column is exactly k; in particular for the
baseline [Jan: 10, Feb: 20] with constant daily value 5 the scale column is
2.0 on January days and 4.0 on February days, and the raw value 5 on
February 10 scales to 20. -/
theorem scaling_single_pull_correct (idx mIdx : List Date) (rawQ : Date → ℚ)
    (mVal : Date → PVal) (k : ℚ)
    (hsort : List.Pairwise (fun x y => dltb x y = true) idx)
    (hday1 : ∀ e ∈ idx, 1 ≤ e.day)
    (hfm : ∀ e ∈ idx, firstOfMonth e ∈ idx)
    (hmi : ∀ e ∈ idx, (e ∈ mIdx ↔ e.day = 1))
    (hbase : ∀ e ∈ idx, e.day = 1 → mVal e = .num k)
    (hnz : ∀ e ∈ idx, monthMeanQ idx rawQ e ≠ 0) :
    ((∀ d ∈ idx, onceScale idx (fun e => .num (rawQ e)) mIdx mVal d =
        .num (k / monthMeanQ idx rawQ d)) ∧
      (∀ d ∈ idx, pmean ((monthDays idx d).map
        (onceScaled idx (fun e => .num (rawQ e)) mIdx mVal)) = .num k)) ∧
    ((∀ d ∈ scnIdx, d.month = 1 →
        onceScale scnIdx (fun _ => .num 5) scnMIdx scnMVal d = .num 2) ∧
      (∀ d ∈ scnIdx, d.month = 2 →
        onceScale scnIdx (fun _ => .num 5) scnMIdx scnMVal d = .num 4) ∧
      onceScaled scnIdx (fun _ => .num 5) scnMIdx scnMVal ⟨2019, 2, 10⟩ = .num 20) := by
  have hbase2 : ∀ e ∈ idx, e.day = 1 → mVal e = .num ((fun _ => k) (monthOf e)) := hbase
  have hscn : ∀ d ∈ scnIdx, onceScale scnIdx (fun _ => .num 5) scnMIdx scnMVal d =
      .num (scnKOf (monthOf d) / 5) := by
    intro d hd
    have h := onceScale_eq scnIdx scnMIdx (fun _ => (5 : ℚ)) scnMVal scnKOf d
      scn_sorted hd (scn_day1 d hd) (scn_fm d hd) scn_mi scn_base
      (by rw [scn_mean d hd]; norm_num)
    rw [scn_mean d hd] at h
    exact h
  refine ⟨⟨?_, ?_⟩, ?_, ?_, ?_⟩
  · intro d hd
    exact onceScale_eq idx mIdx rawQ mVal (fun _ => k) d hsort hd (hday1 d hd)
      (hfm d hd) hmi hbase2 (hnz d hd)
  · intro d hd
    exact onceScaled_month_mean idx mIdx rawQ mVal (fun _ => k) d hsort hd hday1
      hfm hmi hbase2 (hnz d hd)
  · intro d hd hm1
    rw [hscn d hd]
    have : scnKOf (monthOf d) = 10 := by
      unfold scnKOf monthOf
      dsimp only
      rw [if_pos hm1]
    rw [this]
    norm_num
  · intro d hd hm2
    rw [hscn d hd]
    have : scnKOf (monthOf d) = 20 := by
      unfold scnKOf monthOf
      dsimp only
      rw [if_neg (by omega)]
    rw [this]
    norm_num
  · have hd10 : (⟨2019, 2, 10⟩ : Date) ∈ scnIdx := by decide
    unfold onceScaled
    rw [hscn ⟨2019, 2, 10⟩ hd10]
    have : scnKOf (monthOf ⟨2019, 2, 10⟩) = 20 := by decide
    rw [this, pmul_num_num]
    norm_num

theorem scaling_single_pull_correct_witness :
    onceScale scnIdx (fun e => PVal.num ((fun _ => (5 : ℚ)) e)) scnMIdx
        (fun _ => PVal.num 10) ⟨2019, 1, 15⟩ =
      .num (10 / monthMeanQ scnIdx (fun _ => (5 : ℚ)) ⟨2019, 1, 15⟩) :=
  (scaling_single_pull_correct scnIdx scnMIdx (fun _ => (5 : ℚ))
      (fun _ => PVal.num 10) 10 scn_sorted scn_day1 scn_fm scn_mi
      (fun _ _ _ => rfl)
      (fun e he => by rw [scn_mean e he]; norm_num)).1.1
    ⟨2019, 1, 15⟩ (by decide)

/-! ### C4: a month whose observed daily mean is zero -/

def cxIdx : List Date := [⟨2019, 1, 1⟩, ⟨2019, 2, 1⟩, ⟨2019, 2, 2⟩]

def cxMIdx : List Date := [⟨2019, 1, 1⟩, ⟨2019, 2, 1⟩]

def cxRawQ : Date → ℚ := fun d => if d.month = 1 then 5 else 0

theorem scnMVal_base (e : Date) : scnMVal e = .num (scnKOf (monthOf e)) := by
  unfold scnMVal scnKOf monthOf
  dsimp only
  split_ifs <;> rfl

theorem cx_feb_mean : monthMeanQ cxIdx cxRawQ ⟨2019, 2, 1⟩ = 0 := by
  have hmd : monthDays cxIdx ⟨2019, 2, 1⟩ = [⟨2019, 2, 1⟩, ⟨2019, 2, 2⟩] := by decide
  unfold monthMeanQ
  rw [hmd]
  simp [cxRawQ]

theorem cx_jan_mean : monthMeanQ cxIdx cxRawQ ⟨2019, 1, 1⟩ = 5 := by
  have hmd : monthDays cxIdx ⟨2019, 1, 1⟩ = [⟨2019, 1, 1⟩] := by decide
  unfold monthMeanQ
  rw [hmd]
  simp [cxRawQ]

/-- C4 (counterexample).  The claim asserts that a month whose observed mean
is zero receives its scale by forward-fill from the most recent previous
defined month.  With baseline [Jan: 10, Feb: 20], January daily values 5 and
February daily values 0, the claimed policy would give February the January
scale 2.0; the code instead divides by the zero mean, producing a +inf scale
(never forward-filled, since the zero mean is not a missing value), and the
scaled February output is NaN (0 times inf), not the 0 the claimed policy
would produce. -/
theorem zero_mean_scale_counterexample :
    onceScale cxIdx (fun e => .num (cxRawQ e)) cxMIdx scnMVal ⟨2019, 2, 1⟩ = .pinf ∧
    PVal.pinf ≠ PVal.num 2 ∧
    onceScale cxIdx (fun e => .num (cxRawQ e)) cxMIdx scnMVal ⟨2019, 1, 1⟩ = .num 2 ∧
    onceScaled cxIdx (fun e => .num (cxRawQ e)) cxMIdx scnMVal ⟨2019, 2, 1⟩ = .nan ∧
    PVal.nan ≠ PVal.num 0 := by
  have hbase : ∀ e ∈ cxIdx, e.day = 1 → scnMVal e = .num (scnKOf (monthOf e)) :=
    fun e _ _ => scnMVal_base e
  have hfeb : onceScale cxIdx (fun e => .num (cxRawQ e)) cxMIdx scnMVal ⟨2019, 2, 1⟩ =
      .pinf := by
    unfold onceScale
    rw [onceMon_eq cxIdx cxMIdx scnMVal scnKOf ⟨2019, 2, 1⟩ (by decide) (by decide)
        (by decide) (by decide) (by decide) hbase,
      onceAvg_eq cxIdx cxRawQ ⟨2019, 2, 1⟩ (by decide) (by decide) (by decide) (by decide),
      cx_feb_mean,
      show scnKOf (monthOf ⟨2019, 2, 1⟩) = 20 by decide]
    exact pdiv_num_zero_pos 20 (by norm_num)
  refine ⟨hfeb, by decide, ?_, ?_, by decide⟩
  · have h := onceScale_eq cxIdx cxMIdx cxRawQ scnMVal scnKOf ⟨2019, 1, 1⟩ (by decide)
      (by decide) (by decide) (by decide) (by decide) hbase
      (by rw [cx_jan_mean]; norm_num)
    rw [cx_jan_mean, show scnKOf (monthOf ⟨2019, 1, 1⟩) = 10 by decide] at h
    rw [h]
    norm_num
  · unfold onceScaled
    rw [hfeb]
    show pmul (PVal.num (cxRawQ ⟨2019, 2, 1⟩)) PVal.pinf = PVal.nan
    rw [show cxRawQ ⟨2019, 2, 1⟩ = 0 by decide]
    exact pmul_num_zero_pinf

/-- C4 (amended).  For a month whose observed monthly mean of the daily data
is zero, the scaling step of getDailyDataOnce raises no error: pandas
division by the zero mean yields a +inf scale when the (forward-filled)
baseline value of that month is positive — the scale is NOT forward-filled
from the previous defined month, because forward fill applies only to
missing values and a zero mean is not missing — and the scaled output on
days whose raw value is 0 is NaN (0 times inf), i.e. missing rather than a
fault. -/
theorem zero_mean_scale_amended (idx mIdx : List Date) (rawQ : Date → ℚ)
    (mVal : Date → PVal) (kOf : Nat × Nat → ℚ) (d : Date)
    (hsort : List.Pairwise (fun x y => dltb x y = true) idx)
    (hd : d ∈ idx) (hday1 : 1 ≤ d.day) (hfm : firstOfMonth d ∈ idx)
    (hmi : ∀ e ∈ idx, (e ∈ mIdx ↔ e.day = 1))
    (hbase : ∀ e ∈ idx, e.day = 1 → mVal e = .num (kOf (monthOf e)))
    (hpos : 0 < kOf (monthOf d))
    (hzero : monthMeanQ idx rawQ d = 0) :
    onceScale idx (fun e => .num (rawQ e)) mIdx mVal d = .pinf ∧
    (rawQ d = 0 → onceScaled idx (fun e => .num (rawQ e)) mIdx mVal d = .nan) := by
  have hs : onceScale idx (fun e => .num (rawQ e)) mIdx mVal d = .pinf := by
    unfold onceScale
    rw [onceMon_eq idx mIdx mVal kOf d hsort hd hday1 hfm hmi hbase,
      onceAvg_eq idx rawQ d hsort hd hday1 hfm, hzero]
    exact pdiv_num_zero_pos _ hpos
  refine ⟨hs, fun h0 => ?_⟩
  unfold onceScaled
  rw [hs]
  show pmul (PVal.num (rawQ d)) PVal.pinf = PVal.nan
  rw [h0]
  exact pmul_num_zero_pinf

theorem zero_mean_scale_amended_witness :
    onceScale cxIdx (fun e => PVal.num (cxRawQ e)) cxMIdx scnMVal ⟨2019, 2, 1⟩ = .pinf ∧
    (cxRawQ ⟨2019, 2, 1⟩ = 0 →
      onceScaled cxIdx (fun e => PVal.num (cxRawQ e)) cxMIdx scnMVal ⟨2019, 2, 1⟩ = .nan) :=
  zero_mean_scale_amended cxIdx cxMIdx cxRawQ scnMVal scnKOf ⟨2019, 2, 1⟩ (by decide)
    (by decide) (by decide) (by decide) (by decide) (fun e _ _ => scnMVal_base e)
    (by decide) cx_feb_mean

/-! ## The database read path (getDailyDataFromDB / getMonthlyDataFromDB)

A stored sheet is a date index together with one valuation function per
column (the column labels play no role in the read path).  Slicing
[start_date:stop_date] restricts the index.  T.median() takes, at each date,
the median across the columns (skipna).

In the uniform branch the per-date median of the daily table is resampled to
monthly means exactly as in getDailyDataOnce, the monthly median column is
joined and ffilled, and the daily median is multiplied by
monthly / average.  In the non-uniform branch each daily column is resampled
to monthly means, divided by the monthly median (index-aligned division:
rows missing on either side give NaN), joined back onto the daily index,
ffilled, and used to divide the raw column before the cross-column median;
every month-start row of the daily index lies within the resample span, so
the span restriction of resample is vacuous on index rows. -/

structure DBTable where
  idx : List Date
  cols : List (Date → PVal)

structure DBRow where
  scaled : PVal
  monthly : PVal

def sliceTable (t : DBTable) (s e : Date) : DBTable :=
  ⟨t.idx.filter (fun d => dleb s d && dleb d e), t.cols⟩

/-- Per-date median across the columns of the monthly table (data_m.T.median()). -/
def dbMonthlyMed (dm : DBTable) (d : Date) : PVal :=
  pmedian (dm.cols.map (fun c => c d))

/-- Per-date median across the columns of the daily table (data_d.T.median()). -/
def dailyMed (dd : DBTable) (d : Date) : PVal :=
  pmedian (dd.cols.map (fun c => c d))

/-- The monthly median joined onto a daily index (value where the daily row
belongs to the monthly index, NaN elsewhere). -/
def dbMonPre (dm : DBTable) (d : Date) : PVal :=
  if d ∈ dm.idx then dbMonthlyMed dm d else .nan

/-- The ffilled monthly column of both read-path outputs. -/
def dbMonF (dm : DBTable) (idx : List Date) (d : Date) : PVal :=
  ffillCol idx (dbMonPre dm) d

def dbUniAvgPre (idx : List Date) (med : Date → PVal) (d : Date) : PVal :=
  if d.day = 1 then pmean ((monthDays idx d).map med) else .nan

def dbUniAvg (idx : List Date) (med : Date → PVal) (d : Date) : PVal :=
  ffillCol idx (dbUniAvgPre idx med) d

/-- Output of the uniform branch: per date, the scaled daily median
(dailyraw * monthly / avg) and the ffilled monthly median. -/
def dbUniformTable (dm dd : DBTable) : List (Date × DBRow) :=
  dd.idx.map (fun d =>
    (d, ⟨pmul (dailyMed dd d)
          (pdiv (dbMonF dm dd.idx d) (dbUniAvg dd.idx (dailyMed dd) d)),
        dbMonF dm dd.idx d⟩))

/-- Monthly means of one daily column (one column of data_d.resample('M').mean()). -/
def colMonthMean (idx : List Date) (c : Date → PVal) (d : Date) : PVal :=
  pmean ((monthDays idx d).map c)

/-- One column of scale_m joined onto the daily index: the column's monthly
mean divided by the monthly median, with NaN wherever either side is missing
after index alignment. -/
def nuScalePre (dm : DBTable) (idx : List Date) (c : Date → PVal) (d : Date) : PVal :=
  pdiv (if d.day = 1 then colMonthMean idx c d else .nan) (dbMonPre dm d)

/-- One column of scale_d: the joined scale column forward-filled along the
daily index. -/
def nuScaleD (dm : DBTable) (idx : List Date) (c : Date → PVal) (d : Date) : PVal :=
  ffillCol idx (nuScalePre dm idx c) d

/-- One column of data_d_scaled = data_d.div(scale_d). -/
def nuScaledCol (dm : DBTable) (idx : List Date) (c : Date → PVal) (d : Date) : PVal :=
  pdiv (c d) (nuScaleD dm idx c d)

/-- Output of the non-uniform branch: per date, the cross-column median of
the rescaled daily columns and the ffilled monthly median. -/
def dbNonUniformTable (dm dd : DBTable) : List (Date × DBRow) :=
  dd.idx.map (fun d =>
    (d, ⟨pmedian (dd.cols.map (fun c => nuScaledCol dm dd.idx c d)),
        dbMonF dm dd.idx d⟩))

/-- getDailyDataFromDB: None when the database file is missing, otherwise
the branch selected by uniformdata, over the [start_date:stop_date] slices
with stop_date = min(date(stop_year, 12, 31), today). -/
def getDailyDataFromDB (dbExists : Bool) (dm dd : DBTable) (sy ey : Nat)
    (today : Date) (uniformdata : Bool) : Option (List (Date × DBRow)) :=
  if dbExists then
    if uniformdata then
      some (dbUniformTable (sliceTable dm ⟨sy, 1, 1⟩ (dmin ⟨ey, 12, 31⟩ today))
        (sliceTable dd ⟨sy, 1, 1⟩ (dmin ⟨ey, 12, 31⟩ today)))
    else
      some (dbNonUniformTable (sliceTable dm ⟨sy, 1, 1⟩ (dmin ⟨ey, 12, 31⟩ today))
        (sliceTable dd ⟨sy, 1, 1⟩ (dmin ⟨ey, 12, 31⟩ today)))
  else none

/-- getMonthlyDataFromDB: the sliced monthly median table; the uniformdata
parameter appears in the signature but is never used in the body. -/
def getMonthlyDataFromDB (dbExists : Bool) (dm : DBTable) (sy ey : Nat)
    (today : Date) (uniformdata : Bool) : Option (List (Date × PVal)) :=
  if dbExists then
    some ((sliceTable dm ⟨sy, 1, 1⟩ (dmin ⟨ey, 12, 31⟩ today)).idx.map
      (fun d => (d, dbMonthlyMed (sliceTable dm ⟨sy, 1, 1⟩ (dmin ⟨ey, 12, 31⟩ today)) d)))
  else none

/-! ### Sorting and median lemmas -/

theorem insertP_perm (a : PVal) : ∀ l : List PVal, (insertP a l).Perm (a :: l) := by
  intro l
  induction l with
  | nil => exact List.Perm.refl _
  | cons b l ih =>
    unfold insertP
    split_ifs
    · exact List.Perm.refl _
    · exact (List.Perm.cons b ih).trans (List.Perm.swap a b l)

theorem sortP_perm : ∀ l : List PVal, (sortP l).Perm l := by
  intro l
  induction l with
  | nil => exact List.Perm.refl _
  | cons a l ih =>
    unfold sortP
    exact (insertP_perm a (sortP l)).trans (List.Perm.cons a ih)

theorem pleb_total (a b : PVal) : pleb a b = true ∨ pleb b a = true := by
  cases a <;> cases b <;> simp [pleb]
  exact le_total _ _

theorem pleb_antisymm {a b : PVal} (h1 : pleb a b = true) (h2 : pleb b a = true) :
    a = b := by
  cases a <;> cases b <;> simp_all [pleb]
  exact le_antisymm h1 h2

theorem pleb_trans {a b c : PVal} (h1 : pleb a b = true) (h2 : pleb b c = true) :
    pleb a c = true := by
  cases a <;> cases b <;> cases c <;> simp_all [pleb]
  exact le_trans h1 h2

theorem insertP_pairwise (a : PVal) :
    ∀ l : List PVal, List.Pairwise (fun x y => pleb x y = true) l →
      List.Pairwise (fun x y => pleb x y = true) (insertP a l) := by
  intro l
  induction l with
  | nil => intro _; exact List.pairwise_singleton _ a
  | cons b l ih =>
    intro hp
    obtain ⟨hb, hl⟩ := List.pairwise_cons.mp hp
    unfold insertP
    split_ifs with hab
    · refine List.pairwise_cons.mpr ⟨?_, hp⟩
      intro x hx
      rcases List.mem_cons.mp hx with rfl | hx
      · exact hab
      · exact pleb_trans hab (hb x hx)
    · refine List.pairwise_cons.mpr ⟨?_, ih hl⟩
      intro x hx
      have hx2 : x ∈ a :: l := (insertP_perm a l).mem_iff.mp hx
      rcases List.mem_cons.mp hx2 with rfl | hx2
      · rcases pleb_total b x with h | h
        · exact h
        · exact absurd h hab
      · exact hb x hx2

theorem sortP_pairwise : ∀ l : List PVal,
    List.Pairwise (fun x y => pleb x y = true) (sortP l) := by
  intro l
  induction l with
  | nil => exact List.Pairwise.nil
  | cons a l ih => exact insertP_pairwise a (sortP l) ih

instance : IsAntisymm PVal (fun x y => pleb x y = true) :=
  ⟨fun _ _ h1 h2 => pleb_antisymm h1 h2⟩

theorem sortP_eq_of_perm {l1 l2 : List PVal} (h : l1.Perm l2) :
    sortP l1 = sortP l2 :=
  List.eq_of_perm_of_sorted ((sortP_perm l1).trans (h.trans (sortP_perm l2).symm))
    (sortP_pairwise l1) (sortP_pairwise l2)

theorem pmedian_perm {l1 l2 : List PVal} (h : l1.Perm l2) :
    pmedian l1 = pmedian l2 := by
  have hs : sortP (l1.filter (fun v => !v.isNaN)) =
      sortP (l2.filter (fun v => !v.isNaN)) :=
    sortP_eq_of_perm (h.filter _)
  simp only [pmedian]
  rw [hs]

/-! ## Claim theorems for the read path -/

theorem dbUniformTable_cols_perm (dm : DBTable) (i : List Date)
    {c1 c2 : List (Date → PVal)} (h : c1.Perm c2) :
    dbUniformTable dm ⟨i, c1⟩ = dbUniformTable dm ⟨i, c2⟩ := by
  have hmed : dailyMed ⟨i, c1⟩ = dailyMed ⟨i, c2⟩ := by
    funext d
    exact pmedian_perm (h.map (fun c => c d))
  unfold dbUniformTable
  dsimp only
  rw [hmed]

/-- C8.  Order-independence of uniform aggregation: for every stored pair of
tables and every permutation of the daily table's columns, the read path
with uniformdata = true returns an identical output table (the per-date
median across columns is permutation-invariant, and nothing else in the
uniform branch depends on the columns). -/
theorem uniform_median_perm_invariant (dbExists : Bool) (dm : DBTable)
    (idx : List Date) (cols cols2 : List (Date → PVal)) (sy ey : Nat)
    (today : Date) (hperm : cols.Perm cols2) :
    getDailyDataFromDB dbExists dm ⟨idx, cols⟩ sy ey today true =
      getDailyDataFromDB dbExists dm ⟨idx, cols2⟩ sy ey today true := by
  cases dbExists with
  | false => rfl
  | true =>
    show some (dbUniformTable (sliceTable dm ⟨sy, 1, 1⟩ (dmin ⟨ey, 12, 31⟩ today))
        ⟨idx.filter (fun d => dleb ⟨sy, 1, 1⟩ d && dleb d (dmin ⟨ey, 12, 31⟩ today)), cols⟩) =
      some (dbUniformTable (sliceTable dm ⟨sy, 1, 1⟩ (dmin ⟨ey, 12, 31⟩ today))
        ⟨idx.filter (fun d => dleb ⟨sy, 1, 1⟩ d && dleb d (dmin ⟨ey, 12, 31⟩ today)), cols2⟩)
    rw [dbUniformTable_cols_perm _ _ hperm]

theorem uniform_median_perm_invariant_witness :
    getDailyDataFromDB true ⟨[⟨2019, 1, 1⟩], [fun _ => PVal.num 7]⟩
        ⟨[⟨2019, 1, 1⟩, ⟨2019, 1, 2⟩], [fun _ => PVal.num 5, fun _ => PVal.num 6]⟩
        2019 2019 ⟨2026, 10, 12⟩ true =
      getDailyDataFromDB true ⟨[⟨2019, 1, 1⟩], [fun _ => PVal.num 7]⟩
        ⟨[⟨2019, 1, 1⟩, ⟨2019, 1, 2⟩], [fun _ => PVal.num 6, fun _ => PVal.num 5]⟩
        2019 2019 ⟨2026, 10, 12⟩ true :=
  uniform_median_perm_invariant true ⟨[⟨2019, 1, 1⟩], [fun _ => PVal.num 7]⟩
    [⟨2019, 1, 1⟩, ⟨2019, 1, 2⟩] [fun _ => PVal.num 5, fun _ => PVal.num 6]
    [fun _ => PVal.num 6, fun _ => PVal.num 5] 2019 2019 ⟨2026, 10, 12⟩
    (List.Perm.swap _ _ _)

/-- C9.  getMonthlyDataFromDB ignores its uniformdata flag: for every
database state, keyword slice range and today, calling it with any two
values of the flag returns identical results, namely the sliced cross-column
monthly median table (or None when no database exists). -/
theorem monthly_read_ignores_flag (dbExists : Bool) (dm : DBTable) (sy ey : Nat)
    (today : Date) (u1 u2 : Bool) :
    getMonthlyDataFromDB dbExists dm sy ey today u1 =
        getMonthlyDataFromDB dbExists dm sy ey today u2 ∧
    getMonthlyDataFromDB dbExists dm sy ey today u1 =
      (if dbExists then
        some ((sliceTable dm ⟨sy, 1, 1⟩ (dmin ⟨ey, 12, 31⟩ today)).idx.map
          (fun d => (d, dbMonthlyMed (sliceTable dm ⟨sy, 1, 1⟩ (dmin ⟨ey, 12, 31⟩ today)) d)))
      else none) :=
  ⟨rfl, rfl⟩

/-! ### C7: forward-fill completeness of the baseline column -/

theorem ffillAux_not_nan (col : Date → PVal) (d : Date) :
    ∀ (l : List Date) (prev : PVal), prev.isNaN = false → d ∈ l →
      (ffillAux col prev l d).isNaN = false := by
  intro l
  induction l with
  | nil => intro prev _ hd; simp at hd
  | cons e rest ih =>
    intro prev hprev hd
    rw [ffillAux_cons]
    have hv : (if (col e).isNaN = true then prev else col e).isNaN = false := by
      split_ifs with hn
      · exact hprev
      · exact Bool.not_eq_true _ ▸ (Bool.of_not_eq_true hn)
    by_cases hed : e = d
    · rw [if_pos hed]
      exact hv
    · have hdrest : d ∈ rest := by
        rcases List.mem_cons.mp hd with h | h
        · exact absurd h.symm hed
        · exact h
      rw [if_neg hed]
      exact ih _ hv hdrest

theorem ffillCol_not_nan (col : Date → PVal) (e0 d : Date) (post : List Date)
    (h0 : (col e0).isNaN = false) (hd : d = e0 ∨ d ∈ post) :
    ∀ (pre : List Date) (prev : PVal), d ∉ pre →
      (ffillAux col prev (pre ++ e0 :: post) d).isNaN = false := by
  intro pre
  induction pre with
  | nil =>
    intro prev _
    rw [List.nil_append, ffillAux_cons]
    have hv : (if (col e0).isNaN = true then prev else col e0) = col e0 := by
      rw [h0]
      simp
    by_cases he0d : e0 = d
    · rw [if_pos he0d, hv]
      exact h0
    · have hdp : d ∈ post := by
        rcases hd with h | h
        · exact absurd h.symm he0d
        · exact h
      rw [if_neg he0d, hv]
      exact ffillAux_not_nan col d post (col e0) h0 hdp
  | cons x pre ih =>
    intro prev hdpre
    have hxd : ¬ x = d := by
      intro h
      exact hdpre (by rw [h]; exact List.mem_cons_self d pre)
    rw [List.cons_append, ffillAux_cons, if_neg hxd]
    exact ih _ (fun h => hdpre (List.mem_cons_of_mem x h))

/-- C7.  Forward-fill completeness of the monthly baseline column: in the
output of getDailyDataOnce and in the outputs of both branches of
getDailyDataFromDB, once the joined (pre-ffill) baseline column is
non-missing at some row, every output row at or after that row carries a
non-missing monthly value. -/
theorem ffill_completeness :
    (∀ (idx mIdx : List Date) (raw mVal : Date → PVal) (pre post : List Date)
        (e0 d : Date) (r : OnceRow),
      idx = pre ++ e0 :: post → (onceMonPre mIdx mVal e0).isNaN = false →
      d ∉ pre → (d = e0 ∨ d ∈ post) →
      (d, r) ∈ onceTable idx raw mIdx mVal → r.monthly.isNaN = false) ∧
    (∀ (dm dd : DBTable) (pre post : List Date) (e0 d : Date) (r : DBRow),
      dd.idx = pre ++ e0 :: post → (dbMonPre dm e0).isNaN = false →
      d ∉ pre → (d = e0 ∨ d ∈ post) →
      (d, r) ∈ dbUniformTable dm dd → r.monthly.isNaN = false) ∧
    (∀ (dm dd : DBTable) (pre post : List Date) (e0 d : Date) (r : DBRow),
      dd.idx = pre ++ e0 :: post → (dbMonPre dm e0).isNaN = false →
      d ∉ pre → (d = e0 ∨ d ∈ post) →
      (d, r) ∈ dbNonUniformTable dm dd → r.monthly.isNaN = false) := by
  refine ⟨?_, ?_, ?_⟩
  · intro idx mIdx raw mVal pre post e0 d r hidx h0 hdpre hd hr
    obtain ⟨e, _, heq⟩ := List.mem_map.mp hr
    rw [Prod.mk.injEq] at heq
    obtain ⟨hed, hrq⟩ := heq
    subst hed
    rw [← hrq]
    show (ffillCol idx (onceMonPre mIdx mVal) e).isNaN = false
    rw [hidx]
    exact ffillCol_not_nan _ e0 e post h0 hd pre .nan hdpre
  · intro dm dd pre post e0 d r hidx h0 hdpre hd hr
    obtain ⟨e, _, heq⟩ := List.mem_map.mp hr
    rw [Prod.mk.injEq] at heq
    obtain ⟨hed, hrq⟩ := heq
    subst hed
    rw [← hrq]
    show (ffillCol dd.idx (dbMonPre dm) e).isNaN = false
    rw [hidx]
    exact ffillCol_not_nan _ e0 e post h0 hd pre .nan hdpre
  · intro dm dd pre post e0 d r hidx h0 hdpre hd hr
    obtain ⟨e, _, heq⟩ := List.mem_map.mp hr
    rw [Prod.mk.injEq] at heq
    obtain ⟨hed, hrq⟩ := heq
    subst hed
    rw [← hrq]
    show (ffillCol dd.idx (dbMonPre dm) e).isNaN = false
    rw [hidx]
    exact ffillCol_not_nan _ e0 e post h0 hd pre .nan hdpre

theorem ffill_completeness_witness :
    (onceMon [⟨2019, 1, 1⟩, ⟨2019, 1, 2⟩] [⟨2019, 1, 1⟩] (fun _ => PVal.num 10)
      ⟨2019, 1, 2⟩).isNaN = false :=
  ffill_completeness.1 [⟨2019, 1, 1⟩, ⟨2019, 1, 2⟩] [⟨2019, 1, 1⟩]
    (fun _ => PVal.num 5) (fun _ => PVal.num 10) [] [⟨2019, 1, 2⟩]
    ⟨2019, 1, 1⟩ ⟨2019, 1, 2⟩
    ⟨PVal.num 5,
      onceMon [⟨2019, 1, 1⟩, ⟨2019, 1, 2⟩] [⟨2019, 1, 1⟩] (fun _ => PVal.num 10)
        ⟨2019, 1, 2⟩,
      onceScale [⟨2019, 1, 1⟩, ⟨2019, 1, 2⟩] (fun _ => PVal.num 5) [⟨2019, 1, 1⟩]
        (fun _ => PVal.num 10) ⟨2019, 1, 2⟩,
      onceScaled [⟨2019, 1, 1⟩, ⟨2019, 1, 2⟩] (fun _ => PVal.num 5) [⟨2019, 1, 1⟩]
        (fun _ => PVal.num 10) ⟨2019, 1, 2⟩⟩
    rfl (by decide) (by simp) (by decide)
    (List.mem_map.mpr ⟨⟨2019, 1, 2⟩, by decide, rfl⟩)

/-! ## The retry loop of _fetchData (research.py lines 22-35)

The external client calls are modelled by their outcomes: build_payload's
n-th call gives payload n, and the final pytrends.interest_over_time() call
gives retrieval (per the specification the client may raise a retryable
rate-limit error on any call; the pytrends client itself is outside this
module).  The try/except of _fetchData wraps only the build_payload call:
on a ResponseError it sleeps 60 + 5 * attempts seconds and retries, any
other exception propagates; once build_payload succeeds the loop exits
and interest_over_time runs outside any handler. -/

inductive CallOutcome where
  | ok : CallOutcome
  | respErr : CallOutcome
  | otherErr : CallOutcome
deriving DecidableEq, Repr

inductive FetchFinal where
  | success : FetchFinal
  | raisedResp : FetchFinal
  | raisedOther : FetchFinal
deriving DecidableEq, Repr

/-- The while-loop of _fetchData with explicit fuel: n is the attempts
counter, acc the sleeps performed so far; none means the loop has not
terminated within fuel iterations.  On termination it returns the performed
sleep durations and how the call ended. -/
def fetchLoop (payload : Nat → CallOutcome) (retrieval : CallOutcome) :
    Nat → Nat → List Nat → Option (List Nat × FetchFinal)
  | _, 0, _ => none
  | n, fuel + 1, acc =>
    if payload n = .respErr then
      fetchLoop payload retrieval (n + 1) fuel (acc ++ [60 + 5 * n])
    else if payload n = .otherErr then
      some (acc, .raisedOther)
    else
      some (acc,
        if retrieval = .respErr then .raisedResp
        else if retrieval = .otherErr then .raisedOther
        else .success)

def fetchDataRun (payload : Nat → CallOutcome) (retrieval : CallOutcome)
    (fuel : Nat) : Option (List Nat × FetchFinal) :=
  fetchLoop payload retrieval 0 fuel []

theorem range_map_shift (n m : Nat) :
    (60 + 5 * n) :: (List.range m).map (fun i => 60 + 5 * (n + 1 + i)) =
      (List.range (m + 1)).map (fun i => 60 + 5 * (n + i)) := by
  rw [List.range_succ_eq_map, List.map_cons, List.map_map]
  have h1 : 60 + 5 * (n + 0) = 60 + 5 * n := by omega
  have h2 : ((fun i => 60 + 5 * (n + i)) ∘ Nat.succ) =
      (fun i => 60 + 5 * (n + 1 + i)) := by
    funext i
    show 60 + 5 * (n + (i + 1)) = 60 + 5 * (n + 1 + i)
    omega
  rw [h1, h2]

theorem fetchLoop_zero (payload : Nat → CallOutcome) (retrieval : CallOutcome)
    (n : Nat) (acc : List Nat) : fetchLoop payload retrieval n 0 acc = none := rfl

theorem fetchLoop_succ (payload : Nat → CallOutcome) (retrieval : CallOutcome)
    (n fuel : Nat) (acc : List Nat) :
    fetchLoop payload retrieval n (fuel + 1) acc =
      if payload n = .respErr then
        fetchLoop payload retrieval (n + 1) fuel (acc ++ [60 + 5 * n])
      else if payload n = .otherErr then
        some (acc, .raisedOther)
      else
        some (acc,
          if retrieval = .respErr then .raisedResp
          else if retrieval = .otherErr then .raisedOther
          else .success) := rfl

theorem fetchLoop_step_resp (payload : Nat → CallOutcome) (retrieval : CallOutcome)
    (n fuel : Nat) (acc : List Nat) (h : payload n = .respErr) :
    fetchLoop payload retrieval n (fuel + 1) acc =
      fetchLoop payload retrieval (n + 1) fuel (acc ++ [60 + 5 * n]) := by
  rw [fetchLoop_succ, if_pos h]

theorem fetchLoop_step_other (payload : Nat → CallOutcome) (retrieval : CallOutcome)
    (n fuel : Nat) (acc : List Nat) (h : payload n = .otherErr) :
    fetchLoop payload retrieval n (fuel + 1) acc = some (acc, .raisedOther) := by
  rw [fetchLoop_succ, if_neg (by rw [h]; simp), if_pos h]

theorem fetchLoop_step_ok_ok (payload : Nat → CallOutcome)
    (n fuel : Nat) (acc : List Nat) (h : payload n = .ok) :
    fetchLoop payload .ok n (fuel + 1) acc = some (acc, .success) := by
  rw [fetchLoop_succ, if_neg (by rw [h]; simp), if_neg (by rw [h]; simp),
    if_neg (by simp), if_neg (by simp)]

theorem fetchLoop_step_ok_resp (payload : Nat → CallOutcome)
    (n fuel : Nat) (acc : List Nat) (h : payload n = .ok) :
    fetchLoop payload .respErr n (fuel + 1) acc = some (acc, .raisedResp) := by
  rw [fetchLoop_succ, if_neg (by rw [h]; simp), if_neg (by rw [h]; simp), if_pos rfl]

theorem fetchLoop_step_ok_other (payload : Nat → CallOutcome)
    (n fuel : Nat) (acc : List Nat) (h : payload n = .ok) :
    fetchLoop payload .otherErr n (fuel + 1) acc = some (acc, .raisedOther) := by
  rw [fetchLoop_succ, if_neg (by rw [h]; simp), if_neg (by rw [h]; simp),
    if_neg (by simp), if_pos rfl]

theorem fetchLoop_sound (payload : Nat → CallOutcome) (retrieval : CallOutcome) :
    ∀ (fuel n : Nat) (acc sl : List Nat) (fin : FetchFinal),
      fetchLoop payload retrieval n fuel acc = some (sl, fin) →
      (∃ m, sl = acc ++ (List.range m).map (fun i => 60 + 5 * (n + i))) ∧
      (fin = .raisedResp → retrieval = .respErr) := by
  intro fuel
  induction fuel with
  | zero =>
    intro n acc sl fin h
    rw [fetchLoop_zero] at h
    exact absurd h (by simp)
  | succ fuel ih =>
    intro n acc sl fin h
    cases hp : payload n with
    | respErr =>
      rw [fetchLoop_step_resp payload retrieval n fuel acc hp] at h
      obtain ⟨⟨m, hm⟩, hr⟩ := ih (n + 1) (acc ++ [60 + 5 * n]) sl fin h
      refine ⟨⟨m + 1, ?_⟩, hr⟩
      rw [hm, List.append_assoc, List.singleton_append, range_map_shift]
    | otherErr =>
      rw [fetchLoop_step_other payload retrieval n fuel acc hp] at h
      rw [Option.some.injEq, Prod.mk.injEq] at h
      refine ⟨⟨0, by rw [← h.1]; simp⟩, ?_⟩
      intro hfin
      rw [← h.2] at hfin
      exact absurd hfin (by simp)
    | ok =>
      cases retrieval with
      | ok =>
        rw [fetchLoop_step_ok_ok payload n fuel acc hp] at h
        rw [Option.some.injEq, Prod.mk.injEq] at h
        refine ⟨⟨0, by rw [← h.1]; simp⟩, ?_⟩
        intro hfin
        rw [← h.2] at hfin
        exact absurd hfin (by simp)
      | respErr =>
        rw [fetchLoop_step_ok_resp payload n fuel acc hp] at h
        rw [Option.some.injEq, Prod.mk.injEq] at h
        exact ⟨⟨0, by rw [← h.1]; simp⟩, fun _ => rfl⟩
      | otherErr =>
        rw [fetchLoop_step_ok_other payload n fuel acc hp] at h
        rw [Option.some.injEq, Prod.mk.injEq] at h
        refine ⟨⟨0, by rw [← h.1]; simp⟩, ?_⟩
        intro hfin
        rw [← h.2] at hfin
        exact absurd hfin (by simp)

theorem fetchLoop_immediate (payload : Nat → CallOutcome) (retrieval : CallOutcome) :
    ∀ (j n : Nat) (acc : List Nat),
      (∀ m, m < j → payload (n + m) = .respErr) → payload (n + j) = .otherErr →
      fetchLoop payload retrieval n (j + 1) acc =
        some (acc ++ (List.range j).map (fun i => 60 + 5 * (n + i)), .raisedOther) := by
  intro j
  induction j with
  | zero =>
    intro n acc _ hj
    rw [Nat.add_zero] at hj
    rw [fetchLoop_step_other payload retrieval n 0 acc hj]
    simp
  | succ j ih =>
    intro n acc hlt hj
    have h0 : payload n = .respErr := by
      have := hlt 0 (by omega)
      rw [Nat.add_zero] at this
      exact this
    rw [fetchLoop_step_resp payload retrieval n (j + 1) acc h0,
      ih (n + 1) (acc ++ [60 + 5 * n])
        (fun m hm => by
          have := hlt (m + 1) (by omega)
          rw [show n + (m + 1) = n + 1 + m by omega] at this
          exact this)
        (by rw [show n + 1 + j = n + (j + 1) by omega]; exact hj)]
    rw [List.append_assoc, List.singleton_append, range_map_shift]

theorem fetchLoop_forever (payload : Nat → CallOutcome) (retrieval : CallOutcome)
    (hall : ∀ m, payload m = .respErr) :
    ∀ (fuel n : Nat) (acc : List Nat),
      fetchLoop payload retrieval n fuel acc = none := by
  intro fuel
  induction fuel with
  | zero => intro n acc; rfl
  | succ fuel ih =>
    intro n acc
    rw [fetchLoop_step_resp payload retrieval n fuel acc (hall n)]
    exact ih (n + 1) (acc ++ [60 + 5 * n])

/-- C5 (counterexample).  The claim asserts that a retryable rate-limit error
raised anywhere during the fetch is never surfaced to the caller.  The
try/except of _fetchData wraps only build_payload; when every build_payload
call succeeds and the final interest_over_time() call raises the retryable
ResponseError, that error propagates to the caller. -/
theorem retry_policy_counterexample :
    fetchDataRun (fun _ => .ok) .respErr 1 = some ([], .raisedResp) ∧
    FetchFinal.raisedResp ≠ FetchFinal.success := by
  exact ⟨rfl, by simp⟩

/-- C5 (amended).  A ResponseError raised by the build_payload call is never
surfaced: on the k-th such failure (counting from 0) the fetcher sleeps
exactly 60 + 5k seconds — the attempt counter never resets within one call —
and retries the same timeframe, indefinitely when the failures never stop
(no termination at any fuel); an error of any other class from build_payload
propagates immediately after no further retries; but a retryable
ResponseError raised by the final interest_over_time retrieval does
propagate to the caller — it is the only source of a surfaced retryable
error. -/
theorem retry_policy_amended :
    (∀ (payload : Nat → CallOutcome) (retrieval : CallOutcome) (fuel : Nat)
        (sl : List Nat) (fin : FetchFinal),
      fetchDataRun payload retrieval fuel = some (sl, fin) →
      (∃ m, sl = (List.range m).map (fun i => 60 + 5 * i)) ∧
      (fin = .raisedResp → retrieval = .respErr)) ∧
    (∀ (payload : Nat → CallOutcome) (retrieval : CallOutcome) (j : Nat),
      (∀ m, m < j → payload m = .respErr) → payload j = .otherErr →
      fetchDataRun payload retrieval (j + 1) =
        some ((List.range j).map (fun i => 60 + 5 * i), .raisedOther)) ∧
    (∀ (payload : Nat → CallOutcome) (retrieval : CallOutcome) (fuel : Nat),
      (∀ m, payload m = .respErr) → fetchDataRun payload retrieval fuel = none) := by
  refine ⟨?_, ?_, ?_⟩
  · intro payload retrieval fuel sl fin h
    obtain ⟨⟨m, hm⟩, hr⟩ := fetchLoop_sound payload retrieval fuel 0 [] sl fin h
    refine ⟨⟨m, ?_⟩, hr⟩
    rw [hm, List.nil_append]
    exact List.map_congr_left (fun i _ => by omega)
  · intro payload retrieval j hlt hj
    have h := fetchLoop_immediate payload retrieval j 0 []
      (fun m hm => by rw [show (0 : Nat) + m = m by omega]; exact hlt m hm)
      (by rw [show (0 : Nat) + j = j by omega]; exact hj)
    unfold fetchDataRun
    rw [h, List.nil_append]
    have : ((List.range j).map (fun i => 60 + 5 * (0 + i))) =
        ((List.range j).map (fun i => 60 + 5 * i)) :=
      List.map_congr_left (fun i _ => by omega)
    rw [this]
  · intro payload retrieval fuel hall
    exact fetchLoop_forever payload retrieval hall fuel 0 []

theorem retry_policy_amended_witness :
    ((∃ m, ([] : List Nat) = (List.range m).map (fun i => 60 + 5 * i)) ∧
      (FetchFinal.success = .raisedResp → CallOutcome.ok = .respErr)) ∧
    fetchDataRun (fun n => if n < 2 then CallOutcome.respErr else .otherErr) .ok 3 =
      some ((List.range 2).map (fun i => 60 + 5 * i), .raisedOther) ∧
    fetchDataRun (fun _ => CallOutcome.respErr) .ok 5 = none := by
  refine ⟨retry_policy_amended.1 (fun _ => .ok) .ok 1 [] .success rfl, ?_, ?_⟩
  · exact retry_policy_amended.2.1 (fun n => if n < 2 then .respErr else .otherErr) .ok 2
      (fun m hm => by simp [hm]) (by simp)
  · exact retry_policy_amended.2.2 (fun _ => .respErr) .ok 5 (fun _ => rfl)

/-! ## buildDatabase / buildMonthlyDatabase (research.py lines 173-216, 328-366)

The persisted dataset is a pair of labelled sheets (monthly, daily), or no
file.  The fetched snapshots are parameters (an index and a valuation per
sheet); a successful acquisition renames the fetched column to
word_MM_DD_YYYY (today's date), outer-joins it into the loaded tables
(index union, columns appended) and writes the file.  The guard — checked
right after loading the file, before the client is constructed and before
any fetch — is whether the monthly sheet already has a column labelled with
today's date. -/

def pad2 (n : Nat) : String := if n < 10 then "0" ++ toString n else toString n

/-- date.today().strftime("_%m_%d_%Y"). -/
def dateSuffix (d : Date) : String :=
  "_" ++ pad2 d.month ++ "_" ++ pad2 d.day ++ "_" ++ toString d.year

structure LTable where
  idx : List Date
  cols : List (String × (Date → PVal))

def LTable.colNames (t : LTable) : List String := t.cols.map Prod.fst

def emptyLTable : LTable := ⟨[], []⟩

/-- how='outer' join: union of the indexes, columns of both tables. -/
def outerJoin (a b : LTable) : LTable :=
  ⟨a.idx ++ b.idx.filter (fun d => !(a.idx.contains d)), a.cols ++ b.cols⟩

def loadTables (store : Option (LTable × LTable)) : LTable × LTable :=
  match store with
  | some p => p
  | none => (emptyLTable, emptyLTable)

def loadMonthly (store : Option LTable) : LTable :=
  match store with
  | some t => t
  | none => emptyLTable

/-- Observable effects of one buildDatabase call: whether the TrendReq
client was constructed, how many _fetchData network calls were made
(1 monthly fetch plus one per daily chunk), whether the file was rewritten,
and the resulting persisted state. -/
structure BuildResult where
  clientBuilt : Bool
  fetchCalls : Nat
  wrote : Bool
  store : Option (LTable × LTable)

structure BuildMonthlyResult where
  clientBuilt : Bool
  fetchCalls : Nat
  wrote : Bool
  store : Option LTable

/-- buildDatabase: load the sheets (empty when no file exists); if the
monthly sheet already has a column labelled word + today's date suffix,
print and return without constructing a client, fetching or writing;
otherwise fetch the monthly snapshot (one _fetchData call) and the daily
snapshot (one _fetchData call per chunk of _getRawDailyData from 2004-01-01
to today), rename both columns to the dated label, outer-join them into the
sheets and write the file. -/
def buildDatabase (today : Date) (word : String) (hip : Bool)
    (store : Option (LTable × LTable))
    (mIdx : List Date) (mCol : Date → PVal)
    (dIdx : List Date) (dCol : Date → PVal) : BuildResult :=
  if (word ++ dateSuffix today) ∈ (loadTables store).1.colNames then
    ⟨false, 0, false, store⟩
  else
    ⟨true,
      1 + (rawChunks ⟨2004, 1, 1⟩ (dmin ⟨today.year, 12, 31⟩ today) hip).length,
      true,
      some (outerJoin (loadTables store).1 ⟨mIdx, [(word ++ dateSuffix today, mCol)]⟩,
        outerJoin (loadTables store).2 ⟨dIdx, [(word ++ dateSuffix today, dCol)]⟩)⟩

/-- buildMonthlyDatabase: the monthly-only variant with the same guard. -/
def buildMonthlyDatabase (today : Date) (word : String) (store : Option LTable)
    (mIdx : List Date) (mCol : Date → PVal) : BuildMonthlyResult :=
  if (word ++ dateSuffix today) ∈ (loadMonthly store).colNames then
    ⟨false, 0, false, store⟩
  else
    ⟨true, 1, true,
      some (outerJoin (loadMonthly store) ⟨mIdx, [(word ++ dateSuffix today, mCol)]⟩)⟩

theorem colNames_outerJoin (a b : LTable) :
    (outerJoin a b).colNames = a.colNames ++ b.colNames := by
  unfold outerJoin LTable.colNames
  exact List.map_append _ _ _

/-- C6.  Same-day idempotency of the database builds: when the stored
monthly sheet already has a column labelled word_MM_DD_YYYY for today, both
buildDatabase and buildMonthlyDatabase return without constructing a client,
without any network fetch and without writing, leaving the persisted state
unchanged; and when the label is initially absent, the first call fetches
and the second call on the resulting state is such a no-op, so two same-day
calls perform exactly one network acquisition. -/
theorem same_day_idempotency (today : Date) (word : String) (hip : Bool)
    (dm dd : LTable) (st : Option LTable)
    (mIdx dIdx mIdx2 dIdx2 : List Date) (mCol dCol mCol2 dCol2 : Date → PVal) :
    ((word ++ dateSuffix today) ∈ dm.colNames →
      buildDatabase today word hip (some (dm, dd)) mIdx mCol dIdx dCol =
        ⟨false, 0, false, some (dm, dd)⟩) ∧
    ((word ++ dateSuffix today) ∈ (loadMonthly st).colNames →
      buildMonthlyDatabase today word st mIdx mCol = ⟨false, 0, false, st⟩) ∧
    ((word ++ dateSuffix today) ∉ dm.colNames →
      (buildDatabase today word hip (some (dm, dd)) mIdx mCol dIdx dCol).clientBuilt
          = true ∧
      buildDatabase today word hip
          (buildDatabase today word hip (some (dm, dd)) mIdx mCol dIdx dCol).store
          mIdx2 mCol2 dIdx2 dCol2 =
        ⟨false, 0, false,
          (buildDatabase today word hip (some (dm, dd)) mIdx mCol dIdx dCol).store⟩) := by
  refine ⟨?_, ?_, ?_⟩
  · intro h
    unfold buildDatabase
    rw [if_pos (show (word ++ dateSuffix today) ∈
      (loadTables (some (dm, dd))).1.colNames from h)]
  · intro h
    unfold buildMonthlyDatabase
    rw [if_pos h]
  · intro h
    have h1 : buildDatabase today word hip (some (dm, dd)) mIdx mCol dIdx dCol =
        ⟨true,
          1 + (rawChunks ⟨2004, 1, 1⟩ (dmin ⟨today.year, 12, 31⟩ today) hip).length,
          true,
          some (outerJoin dm ⟨mIdx, [(word ++ dateSuffix today, mCol)]⟩,
            outerJoin dd ⟨dIdx, [(word ++ dateSuffix today, dCol)]⟩)⟩ := by
      unfold buildDatabase
      rw [if_neg (show ¬ (word ++ dateSuffix today) ∈
        (loadTables (some (dm, dd))).1.colNames from h)]
      rfl
    refine ⟨by rw [h1], ?_⟩
    rw [h1]
    unfold buildDatabase
    rw [if_pos ?_]
    show (word ++ dateSuffix today) ∈
      (outerJoin dm ⟨mIdx, [(word ++ dateSuffix today, mCol)]⟩).colNames
    rw [colNames_outerJoin]
    refine List.mem_append.mpr (Or.inr ?_)
    show (word ++ dateSuffix today) ∈ [(word ++ dateSuffix today, mCol)].map Prod.fst
    simp

theorem same_day_idempotency_witness :
    buildDatabase ⟨2026, 10, 12⟩ "flu" false
        (some (⟨[], [("flu_10_12_2026", fun _ => PVal.num 1)]⟩, emptyLTable))
        [] (fun _ => PVal.num 2) [] (fun _ => PVal.num 2) =
      ⟨false, 0, false,
        some (⟨[], [("flu_10_12_2026", fun _ => PVal.num 1)]⟩, emptyLTable)⟩ ∧
    buildMonthlyDatabase ⟨2026, 10, 12⟩ "flu"
        (some ⟨[], [("flu_10_12_2026", fun _ => PVal.num 1)]⟩) [] (fun _ => PVal.num 2) =
      ⟨false, 0, false, some ⟨[], [("flu_10_12_2026", fun _ => PVal.num 1)]⟩⟩ ∧
    ((buildDatabase ⟨2026, 10, 12⟩ "flu" false (some (emptyLTable, emptyLTable))
        [] (fun _ => PVal.num 2) [] (fun _ => PVal.num 2)).clientBuilt = true ∧
      buildDatabase ⟨2026, 10, 12⟩ "flu" false
          (buildDatabase ⟨2026, 10, 12⟩ "flu" false (some (emptyLTable, emptyLTable))
            [] (fun _ => PVal.num 2) [] (fun _ => PVal.num 2)).store
          [] (fun _ => PVal.num 3) [] (fun _ => PVal.num 3) =
        ⟨false, 0, false,
          (buildDatabase ⟨2026, 10, 12⟩ "flu" false (some (emptyLTable, emptyLTable))
            [] (fun _ => PVal.num 2) [] (fun _ => PVal.num 2)).store⟩) :=
  ⟨(same_day_idempotency ⟨2026, 10, 12⟩ "flu" false
      ⟨[], [("flu_10_12_2026", fun _ => PVal.num 1)]⟩ emptyLTable none
      [] [] [] [] (fun _ => PVal.num 2) (fun _ => PVal.num 2) (fun _ => PVal.num 3)
      (fun _ => PVal.num 3)).1 (by decide),
    (same_day_idempotency ⟨2026, 10, 12⟩ "flu" false emptyLTable emptyLTable
      (some ⟨[], [("flu_10_12_2026", fun _ => PVal.num 1)]⟩)
      [] [] [] [] (fun _ => PVal.num 2) (fun _ => PVal.num 2) (fun _ => PVal.num 3)
      (fun _ => PVal.num 3)).2.1 (by decide),
    (same_day_idempotency ⟨2026, 10, 12⟩ "flu" false emptyLTable emptyLTable none
      [] [] [] [] (fun _ => PVal.num 2) (fun _ => PVal.num 2) (fun _ => PVal.num 3)
      (fun _ => PVal.num 3)).2.2 (by decide)⟩

/-! ## The pacing delay of getDailyDataOnce (research.py lines 148-156)

getDailyDataOnce pulls its daily data one calendar month at a time (the
chunk end is the last day of the current month, without clamping to
stop_date) and, after each fetch, sleeps randrange(10, 10*wait_time)/10
seconds.  Python's random.randrange raises ValueError when the requested
integer range is empty, i.e. when 10*wait_time ≤ 10.  The network fetches
themselves are modelled as succeeding. -/

def onceChunkLoop (stop : Date) : Nat → Date → List (Date × Date)
  | 0, _ => []
  | fuel + 1, current =>
    if dltb current stop then
      (current, lastDayOfMonthOf current) ::
        onceChunkLoop stop fuel (nextDay (lastDayOfMonthOf current))
    else []

/-- The month-by-month chunks of getDailyDataOnce for start_year sy,
stop_year ey, given today's date. -/
def onceChunks (sy ey : Nat) (today : Date) : List (Date × Date) :=
  onceChunkLoop (dmin ⟨ey, 12, 31⟩ today)
    (dcode (dmin ⟨ey, 12, 31⟩ today) + 1 - dcode ⟨sy, 1, 1⟩) ⟨sy, 1, 1⟩

/-- random.randrange(start, stop): a ValueError when the range is empty
(stop ≤ start), otherwise some value of the range (modelled by its least
element). -/
def randrangeChk (start stop : ℚ) : Except String ℚ :=
  if stop ≤ start then .error "empty range for randrange" else .ok start

/-- The fetch-then-sleep loop body of getDailyDataOnce: after each chunk
fetch, sleep randrange(10, 10*wait_time)/10; a ValueError from randrange
aborts the call. -/
def oncePacingRun : List (Date × Date) → ℚ → Except String Unit
  | [], _ => .ok ()
  | _ :: cs, w =>
    match randrangeChk 10 (10 * w) with
    | .error e => .error e
    | .ok _ => oncePacingRun cs w

/-- The daily loop of getDailyDataOnce with all network calls succeeding:
either every pacing sleep is computed (ok) or a randrange ValueError is
raised. -/
def getDailyDataOnceRun (sy ey : Nat) (today : Date) (w : ℚ) : Except String Unit :=
  oncePacingRun (onceChunks sy ey today) w

/-- C10.  Undocumented precondition on wait_time: whenever the requested
range produces at least one daily chunk, every call of getDailyDataOnce
with wait_time ≤ 1.0 fails with the empty-range randrange error even though
every network call succeeds, and conversely a run that completes all its
pacing sleeps with at least one chunk fetched must have had
wait_time > 1.0. -/
theorem pacing_precondition :
    (∀ (sy ey : Nat) (today : Date) (w : ℚ), w ≤ 1 → onceChunks sy ey today ≠ [] →
      getDailyDataOnceRun sy ey today w = .error "empty range for randrange") ∧
    (∀ (sy ey : Nat) (today : Date) (w : ℚ),
      getDailyDataOnceRun sy ey today w = .ok () → onceChunks sy ey today ≠ [] →
      1 < w) := by
  have hkey : ∀ (sy ey : Nat) (today : Date) (w : ℚ), w ≤ 1 →
      onceChunks sy ey today ≠ [] →
      getDailyDataOnceRun sy ey today w = .error "empty range for randrange" := by
    intro sy ey today w hw hne
    unfold getDailyDataOnceRun
    cases hc : onceChunks sy ey today with
    | nil => exact absurd hc hne
    | cons c cs =>
      have hr : randrangeChk 10 (10 * w) = .error "empty range for randrange" := by
        unfold randrangeChk
        rw [if_pos (by linarith)]
      show (match randrangeChk 10 (10 * w) with
        | .error e => Except.error e
        | .ok _ => oncePacingRun cs w) = .error "empty range for randrange"
      rw [hr]
  refine ⟨hkey, ?_⟩
  intro sy ey today w hok hne
  by_contra hle
  have hw : w ≤ 1 := by linarith [not_lt.mp hle]
  have := hkey sy ey today w hw hne
  rw [hok] at this
  exact absurd this (by simp)

theorem pacing_precondition_witness :
    getDailyDataOnceRun 2020 2020 ⟨2026, 10, 12⟩ 1 = .error "empty range for randrange" :=
  pacing_precondition.1 2020 2020 ⟨2026, 10, 12⟩ 1 (by norm_num) (by decide)
